import Mathlib

/-!
Verification development for the `BlockCache` block-header tree
(`src/chain/src/block/cache.rs` of the nakamoto repository).

Shallow embedding conventions:

* Machine integers (`Nat`, `Nat`, compact `bits`, 256-bit targets) are
  modelled as `Nat`; none of the verified code paths rely on wrap-around.
* A `BlockHash` is the underlying byte array of the Rust type: a list of
  bytes, least significant byte first (this is the internal byte order of
  `bitcoin::BlockHash`, which Rust compares lexicographically via its derived
  `Ord`, and which proof-of-work interprets as a little-endian integer).
* External collaborators that are not part of this repository's source
  (the SHA-256d hashing primitive `bitcoin_hash`, compact-target
  expansion/compression, the per-header work function summed by
  `Branch::work`, the Bitcoin retargeting function `next_difficulty_target`,
  and `pow_limit_bits`) are parameters, collected in `Env`.
* `HashMap` fields become association lists whose insert removes the old
  binding; `BTreeMap` becomes a key-sorted association list.  Iteration
  order of the Rust `HashMap` is unspecified; the model fixes the list
  order.  The orphan-pool walk in `branch` removes visited entries so that
  it terminates even on cyclic hash graphs (on which the Rust loop would
  not terminate; such graphs cannot arise from a collision-free hash).
* Functions that can panic in Rust (`assert!`, slice indexing, `expect`,
  `unreachable!`) return `Option`, with `none` for the panic; functions
  returning `Result` return `Except Err` inside that `Option`.  `import_block`
  returns its (possibly mutated) state together with the `Result`, because
  the Rust method mutates `self` before some of its early error returns.
* The store is modelled by its contract (an append/truncate log of headers
  that yields `(index, header)` pairs in ascending order); its contents are
  carried in the state so that frame claims about it can be stated.
-/

abbrev Hash := List Nat

/-- Little-endian integer value of a hash's byte array: this is how
`bitcoin::BlockHeader::validate_pow` interprets the hash for the
proof-of-work comparison. -/
def leVal (h : Hash) : Nat := h.foldr (fun b acc => acc * 256 + b) 0

/-- Lexicographic byte-array comparison: the derived `Ord` on the Rust
`BlockHash` newtype (`[u8; 32]`), used by `import_block`'s tie-break. -/
def lexLt : Hash → Hash → Bool
  | _, [] => false
  | [], _ :: _ => true
  | a :: xs, b :: ys => if a < b then true else if b < a then false else lexLt xs ys

/-- `bitcoin::BlockHeader`, restricted to the fields the cache reads;
`nonce` stands for the remaining opaque fields that only influence the
hash. -/
structure BlockHeader where
  prev_blockhash : Hash
  time : Nat
  bits : Nat
  nonce : Nat
deriving DecidableEq, Repr

/-- `nakamoto_common::block::CachedBlock`. -/
structure CachedBlock where
  height : Nat
  hash : Hash
  header : BlockHeader
deriving DecidableEq, Repr

/-- `bitcoin::Network`, reduced to the distinction the cache makes. -/
inductive Network where
  | bitcoin
  | testnet
  | regtest
deriving DecidableEq, Repr

/-- `bitcoin::consensus::params::Params`, restricted to the fields used;
`difficulty_adjustment_interval` is the value of the Rust method of the
same name. -/
structure Params where
  network : Network
  pow_limit : Nat
  allow_min_difficulty_blocks : Bool
  pow_target_spacing : Nat
  difficulty_adjustment_interval : Nat
deriving DecidableEq, Repr

/-- External primitives (outside this repository's source): hashing,
compact-target conversion, per-header work, retargeting. -/
structure Env where
  bitcoin_hash : BlockHeader → Hash
  target_from_bits : Nat → Nat
  compact_target_from_u256 : Nat → Nat
  work : BlockHeader → Nat
  next_difficulty_target : Nat → Nat → Nat → Params → Nat
  pow_limit_bits : Network → Nat

/-- `nakamoto_common::block::tree::Error` (the constructors the cache
produces). -/
inductive Err where
  | DuplicateBlock (h : Hash)
  | InvalidBlockHeight (h : Nat)
  | InvalidBlockPoW
  | InvalidBlockTarget (got limit : Nat)
  | InvalidBlockHash (h : Hash) (height : Nat)
  | InvalidTimestamp (t : Nat) (ord : Ordering)
  | BlockMissing (h : Hash)
  | BlockImportAborted (e : Err) (i : Nat) (height : Nat)
deriving DecidableEq, Repr

/-- `nakamoto_common::block::tree::ImportResult`. -/
inductive ImportResult where
  | TipUnchanged
  | TipChanged (hash : Hash) (height : Nat) (stale : List Hash)
deriving DecidableEq, Repr

/-- Decidable equality for `Except`, used to evaluate scenario results. -/
instance exceptDecidableEq {ε α : Type} [DecidableEq ε] [DecidableEq α] :
    DecidableEq (Except ε α)
  | .error e1, .error e2 =>
    if h : e1 = e2 then .isTrue (by rw [h]) else .isFalse (by intro hx; cases hx; exact h rfl)
  | .error _, .ok _ => .isFalse (by intro hx; cases hx)
  | .ok _, .error _ => .isFalse (by intro hx; cases hx)
  | .ok a1, .ok a2 =>
    if h : a1 = a2 then .isTrue (by rw [h]) else .isFalse (by intro hx; cases hx; exact h rfl)

/-- Association-list lookup, modelling `HashMap::get` / `BTreeMap::get`. -/
def alookup {κ β : Type} [DecidableEq κ] : List (κ × β) → κ → Option β
  | [], _ => none
  | (k, v) :: rest, q => if q = k then some v else alookup rest q

/-- Association-list removal, modelling `HashMap::remove`. -/
def aremove {κ β : Type} [DecidableEq κ] (m : List (κ × β)) (q : κ) : List (κ × β) :=
  m.filter (fun p => decide (p.1 ≠ q))

/-- Association-list insertion, modelling `HashMap::insert` (replaces any
previous binding of the key). -/
def ainsert {κ β : Type} [DecidableEq κ] (m : List (κ × β)) (q : κ) (v : β) : List (κ × β) :=
  (q, v) :: aremove m q

/-- Key-sorted insertion, modelling `BTreeMap` construction via `collect`. -/
def btreeInsert : List (Nat × Hash) → Nat × Hash → List (Nat × Hash)
  | [], e => [e]
  | x :: xs, e =>
    if e.1 < x.1 then e :: x :: xs
    else if e.1 = x.1 then e :: xs
    else x :: btreeInsert xs e

/-- A chain candidate forking off the active chain (`Candidate` in the
source). -/
structure Candidate where
  tip : Hash
  headers : List BlockHeader
  fork_height : Nat
  fork_hash : Hash
deriving DecidableEq, Repr

/-- The `BlockCache` state.  The non-empty active chain is split into its
head and tail exactly like `NonEmpty<CachedBlock>`; `store` carries the
contents of the persistent header store (by its contract, the header at
each index). -/
structure BlockCache where
  chain_head : CachedBlock
  chain_tail : List CachedBlock
  headers : List (Hash × Nat)
  orphans : List (Hash × BlockHeader)
  checkpoints : List (Nat × Hash)
  params : Params
  store : List BlockHeader
deriving DecidableEq, Repr

/-- The active chain as a plain list (genesis first). -/
def chainList (c : BlockCache) : List CachedBlock := c.chain_head :: c.chain_tail

/-- `self.chain.last()`. -/
def tipCB (c : BlockCache) : CachedBlock := c.chain_tail.getLastD c.chain_head

/-- Hash of the tip. -/
def tipHash (c : BlockCache) : Hash := (tipCB c).hash

/-- `self.height()`: length of the chain tail. -/
def heightOf (c : BlockCache) : Nat := c.chain_tail.length

/-- `nakamoto_common::block::time::MEDIAN_TIME_SPAN`. -/
def MEDIAN_TIME_SPAN : Nat := 11

/-- `nakamoto_common::block::time::MAX_FUTURE_BLOCK_TIME` (two hours). -/
def MAX_FUTURE_BLOCK_TIME : Nat := 7200

/-- Insert into a weakly ascending list of times. -/
def insSorted : Nat → List Nat → List Nat
  | x, [] => [x]
  | x, y :: ys => if x ≤ y then x :: y :: ys else y :: insSorted x ys

/-- Ascending sort of a list of times (the effect of Rust's `slice::sort`
on `u32`). -/
def sortTimes (l : List Nat) : List Nat := l.foldr insSorted []

/-- `median_time_past`: fills an 11-slot zero array with the times of the
chain blocks in `[height - 11, height)` (fewer slots filled when the chain
is shorter), sorts the first `height - start` slots, and returns the middle
one.  `none` models the `assert!(height != 0)` panic. -/
def median_time_past (c : BlockCache) (height : Nat) : Option Nat :=
  if height = 0 then none
  else
    let start := height - MEDIAN_TIME_SPAN
    let n := height - start
    let filled := (((chainList c).drop start).take n).map (fun b => b.header.time)
    let avail := filled ++ List.replicate (n - filled.length) 0
    let sorted := sortTimes avail
    some (sorted.getD (sorted.length / 2) 0)

/-- Result of `bitcoin::BlockHeader::validate_pow`. -/
inductive PowErr where
  | badPoW
  | badTarget
deriving DecidableEq, Repr

/-- `bitcoin::BlockHeader::validate_pow` (external): the header's own
expanded target must equal the required one, and the hash read as a
little-endian integer must not exceed it. -/
def validate_pow (env : Env) (header : BlockHeader) (required : Nat) : Except PowErr Unit :=
  let target := env.target_from_bits header.bits
  if target ≠ required then .error .badTarget
  else if leVal (env.bitcoin_hash header) ≤ target then .ok ()
  else .error .badPoW

/-- `self.last_checkpoint()`: greatest checkpoint height at or below the
current height, or 0. -/
def last_checkpoint (c : BlockCache) : Nat :=
  ((c.checkpoints.reverse.find? (fun p => decide (p.1 ≤ heightOf c))).map Prod.fst).getD 0

/-- Body of the reverse scan in `next_min_difficulty_target`. -/
def nmdtGo (env : Env) (plb dai : Nat) : List (Nat × CachedBlock) → Nat
  | [] => env.target_from_bits plb
  | (h, blk) :: rest =>
    if blk.header.bits ≠ plb ∨ h % dai = 0 then env.target_from_bits blk.header.bits
    else nmdtGo env plb dai rest

/-- `self.next_min_difficulty_target(&self.params)`. -/
def next_min_difficulty_target (env : Env) (c : BlockCache) : Nat :=
  nmdtGo env (env.pow_limit_bits c.params.network) c.params.difficulty_adjustment_interval
    ((chainList c).enum.reverse)

/-- Nat selection of `validate` for the child of `tip`. -/
def selectTarget (env : Env) (c : BlockCache) (tip : CachedBlock) (header : BlockHeader) : Nat :=
  if c.params.allow_min_difficulty_blocks
      ∧ (tip.height + 1) % c.params.difficulty_adjustment_interval ≠ 0 then
    if header.time > tip.header.time + c.params.pow_target_spacing * 2 then
      c.params.pow_limit
    else next_min_difficulty_target env c
  else
    env.next_difficulty_target tip.height tip.header.time
      (env.target_from_bits tip.header.bits) c.params

/-- The selected target round-tripped through the 32-bit compact encoding,
as `validate` does before checking proof of work. -/
def requiredTarget (env : Env) (c : BlockCache) (tip : CachedBlock) (header : BlockHeader) :
    Nat :=
  env.target_from_bits (env.compact_target_from_u256 (selectTarget env c tip header))

/-- `self.validate(tip, header, clock)`.  `none` models a panic (the
`assert_eq!` precondition or `median_time_past(0)`). -/
def validate (env : Env) (c : BlockCache) (tip : CachedBlock) (header : BlockHeader)
    (clockTime : Nat) : Option (Except Err Unit) :=
  if tip.hash = header.prev_blockhash then
    match validate_pow env header (requiredTarget env c tip header) with
    | .error .badPoW => some (.error .InvalidBlockPoW)
    | .error .badTarget =>
        some (.error (.InvalidBlockTarget (env.target_from_bits header.bits)
          (requiredTarget env c tip header)))
    | .ok _ =>
      let height := tip.height + 1
      let cpfail : Option Err :=
        match alookup c.checkpoints height with
        | some cp =>
            if env.bitcoin_hash header ≠ cp then
              some (Err.InvalidBlockHash (env.bitcoin_hash header) height)
            else none
        | none => none
      match cpfail with
      | some e => some (.error e)
      | none =>
        match median_time_past c height with
        | none => none
        | some m =>
          if header.time ≤ m then some (.error (.InvalidTimestamp header.time .lt))
          else if header.time > clockTime + MAX_FUTURE_BLOCK_TIME then
            some (.error (.InvalidTimestamp header.time .gt))
          else some (.ok ())
  else none

/-- `self.get_block_by_height(height)`. -/
def get_block_by_height (c : BlockCache) (height : Nat) : Option BlockHeader :=
  ((chainList c).get? height).map (fun b => b.header)

/-- `extend_chain(height, hash, header)`: `none` models the
`assert_eq!(header.prev_blockhash, self.chain.last().hash)` panic. -/
def extend_chain (c : BlockCache) (height : Nat) (hash : Hash) (header : BlockHeader) :
    Option BlockCache :=
  if header.prev_blockhash = tipHash c then
    some { c with
      headers := ainsert c.headers hash height,
      orphans := aremove c.orphans hash,
      chain_tail := c.chain_tail ++ [⟨height, hash, header⟩] }
  else none

/-- `rollback(height)`: drain the chain tail above `height` (the drained
blocks move from the headers index to the orphan pool), truncate the
store, and return the stale headers.  `none` models the `Vec::drain`
panic when `height` exceeds the tail length. -/
def rollback (c : BlockCache) (height : Nat) :
    Option (BlockCache × List BlockHeader) :=
  if height ≤ c.chain_tail.length then
    let dropped := c.chain_tail.drop height
    some ({ c with
      chain_tail := c.chain_tail.take height,
      headers := dropped.foldl (fun m b => aremove m b.hash) c.headers,
      orphans := dropped.foldl (fun m b => ainsert m b.hash b.header) c.orphans,
      store := c.store.take (height + 1) }, dropped.map (fun b => b.header))
  else none

/-- `self.chain_suffix(height)`: the slice `&self.chain.tail[height..]`;
`none` models the slice panic when `height` exceeds the tail length. -/
def chain_suffix (c : BlockCache) (height : Nat) : Option (List CachedBlock) :=
  if height ≤ c.chain_tail.length then some (c.chain_tail.drop height) else none

/-- `Branch::work`: cumulative work of a header sequence (sum of the
per-header work primitive). -/
def branchWork (env : Env) (headers : List BlockHeader) : Nat :=
  (headers.map env.work).sum

/-- The loop of `switch_to_fork` (and the replay loop of `from`):
extend the chain with each header at heights `base + i + 1`. -/
def extendLoop (env : Env) : BlockCache → Nat → List BlockHeader → Nat → Option BlockCache
  | c, _, [], _ => some c
  | c, base, h :: rest, i =>
    match extend_chain c (base + i + 1) (env.bitcoin_hash h) h with
    | none => none
    | some c1 => extendLoop env c1 base rest (i + 1)

/-- `switch_to_fork(branch)`: rollback to the fork height, replay the
branch headers, append them to the store; returns the stale headers. -/
def switch_to_fork (env : Env) (c : BlockCache) (b : Candidate) :
    Option (BlockCache × List BlockHeader) :=
  match rollback c b.fork_height with
  | none => none
  | some (c1, stale) =>
    match extendLoop env c1 b.fork_height b.headers 0 with
    | none => none
    | some c2 => some ({ c2 with store := c2.store ++ b.headers }, stale)

/-- The backward walk of `branch`: follow `prev_blockhash` links through
the orphan pool, accumulating headers front-most first.  Visited entries
are removed (see the module comment on termination). -/
def walkOrphans : Nat → List (Hash × BlockHeader) → Hash → List BlockHeader →
    Hash × List BlockHeader
  | 0, _, cursor, acc => (cursor, acc)
  | fuel + 1, orphans, cursor, acc =>
    match alookup orphans cursor with
    | none => (cursor, acc)
    | some hd => walkOrphans fuel (aremove orphans cursor) hd.prev_blockhash (hd :: acc)

/-- `self.branch(tip)`: reconstruct a candidate rooted at an orphan tip;
succeeds only when the walk reaches a hash in the headers index. -/
def branchOf (c : BlockCache) (tip : Hash) : Option Candidate :=
  let w := walkOrphans (c.orphans.length + 1) c.orphans tip []
  match alookup c.headers w.1 with
  | some height => some ⟨tip, w.2, height, w.1⟩
  | none => none

/-- The fold of `validate_branch` over the candidate's headers. -/
def validateBranchGo (env : Env) (c : BlockCache) (t : Nat) :
    CachedBlock → List BlockHeader → Option (Except Err Unit)
  | _, [] => some (.ok ())
  | tip, h :: rest =>
    match validate env c tip h t with
    | none => none
    | some (.error e) => some (.error e)
    | some (.ok _) => validateBranchGo env c t ⟨tip.height + 1, env.bitcoin_hash h, h⟩ rest

/-- `self.validate_branch(candidate, clock)`; `none` models the `expect`
panic when the fork point is not on the active chain. -/
def validate_branch (env : Env) (c : BlockCache) (cand : Candidate) (t : Nat) :
    Option (Except Err Unit) :=
  match get_block_by_height c cand.fork_height with
  | none => none
  | some fh => validateBranchGo env c t ⟨cand.fork_height, cand.fork_hash, fh⟩ cand.headers

/-- The filter loop of `chain_candidates` over the orphan keys. -/
def chainCandidatesGo (env : Env) (c : BlockCache) (t : Nat) :
    List Hash → Option (List Candidate)
  | [] => some []
  | k :: rest =>
    match branchOf c k with
    | none => chainCandidatesGo env c t rest
    | some cand =>
      match validate_branch env c cand t with
      | none => none
      | some (.error _) => chainCandidatesGo env c t rest
      | some (.ok _) =>
        match chainCandidatesGo env c t rest with
        | none => none
        | some cs => some (cand :: cs)

/-- `self.chain_candidates(clock)`. -/
def chain_candidates (env : Env) (c : BlockCache) (t : Nat) : Option (List Candidate) :=
  chainCandidatesGo env c t (c.orphans.map Prod.fst)

/-- The switch decision of `import_block`'s activation loop: switch on
strictly greater work, or—off mainnet—on equal work with a candidate tip
hash that is smaller in the byte-wise lexicographic order of `BlockHash`. -/
def switchCond (params : Params) (candWork mainWork : Nat) (candTip curTip : Hash) : Bool :=
  if candWork > mainWork then true
  else if params.network ≠ Network.bitcoin then
    if candWork = mainWork then lexLt candTip curTip else false
  else false

/-- The activation loop of `import_block` over the candidate list. -/
def activateLoop (env : Env) : BlockCache → List Candidate → Option BlockCache
  | c, [] => some c
  | c, b :: rest =>
    match chain_suffix c b.fork_height with
    | none => none
    | some suffix =>
      let cw := branchWork env b.headers
      let mw := branchWork env (suffix.map (fun blk => blk.header))
      if switchCond c.params cw mw b.tip (tipHash c) then
        match switch_to_fork env c b with
        | none => none
        | some (c1, _) => activateLoop env c1 rest
      else activateLoop env c rest

/-- Outcome of `import_block`'s classification phase (the
`if`/`else if`/`else` at its head). -/
inductive Phase1 where
  | extended (c1 : BlockCache)
  | stashed (c1 : BlockCache)
  | failed (e : Err)
  | panicked
deriving DecidableEq, Repr

/-- Classification phase of `import_block`: extend the tip, reject a
duplicate, reject a pre-checkpoint fork, or pass the cheap PoW gate and
stash the header in the orphan pool. -/
def phase1 (env : Env) (c : BlockCache) (header : BlockHeader) (t : Nat) : Phase1 :=
  let hash := env.bitcoin_hash header
  let tip := tipCB c
  if header.prev_blockhash = tip.hash then
    match validate env c tip header t with
    | none => .panicked
    | some (.error e) => .failed e
    | some (.ok _) =>
      match extend_chain c (tip.height + 1) hash header with
      | none => .panicked
      | some c1 => .extended { c1 with store := c1.store ++ [header] }
  else if (alookup c.headers hash).isSome || (alookup c.orphans hash).isSome then
    .failed (.DuplicateBlock hash)
  else
    let precheck : Option Err :=
      match alookup c.headers header.prev_blockhash with
      | some hp =>
          if hp < last_checkpoint c then some (Err.InvalidBlockHeight (hp + 1)) else none
      | none => none
    match precheck with
    | some e => .failed e
    | none =>
      match validate_pow env header (env.target_from_bits header.bits) with
      | .error .badPoW => .failed .InvalidBlockPoW
      | .error .badTarget => .panicked
      | .ok _ =>
        if env.target_from_bits header.bits > c.params.pow_limit then
          .failed (.InvalidBlockTarget (env.target_from_bits header.bits) c.params.pow_limit)
        else .stashed { c with orphans := ainsert c.orphans hash header }

/-- Phases after classification: enumerate candidates, apply the orphan
guard, run the activation loop, and compare the tip with `best`. -/
def importRest (env : Env) (c1 : BlockCache) (header : BlockHeader) (best : Hash) (t : Nat) :
    Option (BlockCache × Except Err ImportResult) :=
  match chain_candidates env c1 t with
  | none => none
  | some candidates =>
    if candidates.isEmpty
        && (alookup c1.headers header.prev_blockhash).isNone
        && (alookup c1.orphans header.prev_blockhash).isNone then
      some (c1, .error (.BlockMissing header.prev_blockhash))
    else
      match activateLoop env c1 candidates with
      | none => none
      | some c2 =>
        if tipHash c2 ≠ best then
          some (c2, .ok (.TipChanged (tipHash c2) (heightOf c2) []))
        else
          some (c2, .ok .TipUnchanged)

/-- `self.import_block(header, clock)`.  The returned state is `self`
after the call (the Rust method mutates `self` even on some error
returns); `none` models a panic. -/
def import_block (env : Env) (c : BlockCache) (header : BlockHeader) (t : Nat) :
    Option (BlockCache × Except Err ImportResult) :=
  let best := tipHash c
  match phase1 env c header t with
  | .panicked => none
  | .failed e => some (c, .error e)
  | .extended c1 => importRest env c1 header best t
  | .stashed c1 => importRest env c1 header best t

/-- `self.extend_tip(header, clock)`. -/
def extend_tip (env : Env) (c : BlockCache) (header : BlockHeader) (t : Nat) :
    Option (BlockCache × Except Err ImportResult) :=
  let tip := tipCB c
  let hash := env.bitcoin_hash header
  if header.prev_blockhash = tip.hash then
    match validate env c tip header t with
    | none => none
    | some (.error e) => some (c, .error e)
    | some (.ok _) =>
      match extend_chain c (tip.height + 1) hash header with
      | none => none
      | some c1 =>
        some ({ c1 with store := c1.store ++ [header] },
          .ok (.TipChanged hash (tip.height + 1) []))
  else some (c, .ok .TipUnchanged)

/-- The enumerated fold of `import_blocks`. -/
def importBlocksGo (env : Env) (t : Nat) :
    BlockCache → Nat → Option ImportResult → List BlockHeader →
    Option (BlockCache × Except Err ImportResult)
  | c, _, last, [] => some (c, .ok (last.getD .TipUnchanged))
  | c, i, last, h :: rest =>
    match import_block env c h t with
    | none => none
    | some (c1, .ok r) => importBlocksGo env t c1 (i + 1) (some r) rest
    | some (c1, .error (.DuplicateBlock _)) => importBlocksGo env t c1 (i + 1) last rest
    | some (c1, .error (.BlockMissing _)) => importBlocksGo env t c1 (i + 1) last rest
    | some (c1, .error e) => some (c1, .error (.BlockImportAborted e i (heightOf c1)))

/-- `self.import_blocks(chain, context)`. -/
def import_blocks (env : Env) (c : BlockCache) (hs : List BlockHeader) (t : Nat) :
    Option (BlockCache × Except Err ImportResult) :=
  importBlocksGo env t c 0 none hs

/-- The cache as `BlockCache::from` first builds it: genesis alone on the
chain and in the headers index, empty orphan pool, checkpoints collected
into the ordered map. -/
def initCache (env : Env) (g : BlockHeader) (params : Params)
    (cps : List (Nat × Hash)) (storeRest : List BlockHeader) : BlockCache :=
  { chain_head := ⟨0, env.bitcoin_hash g, g⟩,
    chain_tail := [],
    headers := [(env.bitcoin_hash g, 0)],
    orphans := [],
    checkpoints := cps.foldl btreeInsert [],
    params := params,
    store := g :: storeRest }

/-- `BlockCache::from(store, params, checkpoints)`: replay the store's
headers above genesis through `extend_chain` and check the final
`assert_eq!`s on the lengths.  `none` models a panic during replay or a
failed final assertion. -/
def fromStore (env : Env) (g : BlockHeader) (storeRest : List BlockHeader) (params : Params)
    (cps : List (Nat × Hash)) : Option BlockCache :=
  match extendLoop env (initCache env g params cps storeRest) 0 storeRest 0 with
  | none => none
  | some c =>
    if 1 + storeRest.length = (chainList c).length
        ∧ 1 + storeRest.length = c.headers.length then some c
    else none

/-- States reachable from construction through the public operations. -/
inductive Reachable (env : Env) (g : BlockHeader) (params : Params)
    (cps : List (Nat × Hash)) : BlockCache → Prop where
  | init (storeRest : List BlockHeader) (c : BlockCache) :
      fromStore env g storeRest params cps = some c → Reachable env g params cps c
  | step_import (c c' : BlockCache) (h : BlockHeader) (t : Nat) (r : Except Err ImportResult) :
      Reachable env g params cps c → import_block env c h t = some (c', r) →
      Reachable env g params cps c'
  | step_extend_tip (c c' : BlockCache) (h : BlockHeader) (t : Nat)
      (r : Except Err ImportResult) :
      Reachable env g params cps c → extend_tip env c h t = some (c', r) →
      Reachable env g params cps c'
  | step_import_blocks (c c' : BlockCache) (hs : List BlockHeader) (t : Nat)
      (r : Except Err ImportResult) :
      Reachable env g params cps c → import_blocks env c hs t = some (c', r) →
      Reachable env g params cps c'

/-! Concrete fixtures used by scenario theorems and witnesses.  `tEnv`
instantiates the external primitives with small computable stand-ins:
hashes are the one-byte list `[nonce]`, compact conversion is the
identity, every header has unit work, and retargeting inherits the
parent's target. -/

/-- Test environment with one-byte hashes. -/
def tEnv : Env :=
  { bitcoin_hash := fun h => [h.nonce],
    target_from_bits := fun b => b,
    compact_target_from_u256 := fun t => t,
    work := fun _ => 1,
    next_difficulty_target := fun _ _ t _ => t,
    pow_limit_bits := fun _ => 1000000 }

/-- Test parameters (an off-mainnet network, no min-difficulty rule). -/
def tParams : Params :=
  { network := .testnet,
    pow_limit := 1000000,
    allow_min_difficulty_blocks := false,
    pow_target_spacing := 600,
    difficulty_adjustment_interval := 2016 }

/-- Fixture genesis header (hash `[7]`). -/
def gHeader : BlockHeader := ⟨[], 1000, 1000000, 7⟩

/-- Fixture header extending genesis (hash `[8]`). -/
def h1B : BlockHeader := ⟨[7], 1600, 1000000, 8⟩

/-- Fixture header extending `h1B` (hash `[9]`). -/
def h2B : BlockHeader := ⟨[8], 2200, 1000000, 9⟩

/-- Fallback cache for `Option.getD` on fixture computations. -/
def dummyCache : BlockCache := initCache tEnv gHeader tParams [] []

/-- Fixture cache holding only genesis. -/
def s0fix : BlockCache := (fromStore tEnv gHeader [] tParams []).getD dummyCache

/-- Fixture cache after importing the orphan `h2B` into `s0fix`. -/
def s1fix : BlockCache :=
  ((import_block tEnv s0fix h2B 10000).map Prod.fst).getD dummyCache

/-- Fixture cache after then importing `h1B` into `s1fix`. -/
def s2fix : BlockCache :=
  ((import_block tEnv s1fix h1B 10000).map Prod.fst).getD dummyCache

/-- Keys of an association list. -/
def keysOf {κ β : Type} (m : List (κ × β)) : List κ := m.map Prod.fst

/-- Hashes of the active-chain blocks, genesis first. -/
def chainHashes (c : BlockCache) : List Hash := (chainList c).map CachedBlock.hash

/-- Hash of the last element of `t`, or `p` when `t` is empty (the hash a
block appended after `t` must link to). -/
def lastHash (p : Hash) (t : List CachedBlock) : Hash :=
  ((t.getLast?).map CachedBlock.hash).getD p

/-- The chain tail starting at `p` with heights from `n`: each block links
to its predecessor's hash and carries consecutive heights. -/
def linked : Hash → Nat → List CachedBlock → Prop
  | _, _, [] => True
  | p, n, b :: rest => b.header.prev_blockhash = p ∧ b.height = n ∧ linked b.hash (n + 1) rest

/-- Structural chain invariant: the head is the genesis cached block and
the tail is linked to it with heights 1, 2, …. -/
def StructInv (env : Env) (g : BlockHeader) (c : BlockCache) : Prop :=
  c.chain_head = ⟨0, env.bitcoin_hash g, g⟩ ∧ linked c.chain_head.hash 1 c.chain_tail

/-- Full invariant: chain structure, hash fields computed by the hashing
primitive, distinct chain hashes, the headers index keyed exactly by the
chain hashes without duplicates, and orphan keys disjoint from it. -/
def FullInv (env : Env) (g : BlockHeader) (c : BlockCache) : Prop :=
  StructInv env g c ∧
  (∀ b ∈ chainList c, b.hash = env.bitcoin_hash b.header) ∧
  (chainHashes c).Nodup ∧
  (∀ x, x ∈ keysOf c.headers ↔ x ∈ chainHashes c) ∧
  (keysOf c.headers).Nodup ∧
  (∀ x, x ∈ keysOf c.headers → x ∉ keysOf c.orphans)

/-- Median of a list of times as the spec describes it: middle element
(upper middle for even lengths) of the ascending sort. -/
def medianOf (ts : List Nat) : Nat := (sortTimes ts).getD (ts.length / 2) 0

/-- Median-time-past as the spec describes it: the median of the times of
the `min height 11` chain blocks at heights strictly below `height`. -/
def mtpSpec (c : BlockCache) (height : Nat) : Nat :=
  medianOf ((((chainList c).drop (height - MEDIAN_TIME_SPAN)).take
    (min height MEDIAN_TIME_SPAN)).map (fun b => b.header.time))

/-- Errors that `import_blocks` swallows (per the spec's §4.7). -/
def swallowed : Err → Bool
  | .DuplicateBlock _ => true
  | .BlockMissing _ => true
  | _ => false

/-- The spec's description of the batch fold, over an enumerated list:
swallow swallowed errors, abort others with `BlockImportAborted`, and keep
the last successful result. -/
def importBlocksSpecGo (env : Env) (t : Nat) :
    BlockCache → Option ImportResult → List (Nat × BlockHeader) →
    Option (BlockCache × Except Err ImportResult)
  | c, last, [] => some (c, .ok (last.getD .TipUnchanged))
  | c, last, (i, h) :: rest =>
    match import_block env c h t with
    | none => none
    | some (c1, .ok r) => importBlocksSpecGo env t c1 (some r) rest
    | some (c1, .error e) =>
      if swallowed e then importBlocksSpecGo env t c1 last rest
      else some (c1, .error (.BlockImportAborted e i (heightOf c1)))

/-- `import_blocks` as worded by the spec (§4.7), for comparison with the
source translation. -/
def import_blocks_spec (env : Env) (c : BlockCache) (hs : List BlockHeader) (t : Nat) :
    Option (BlockCache × Except Err ImportResult) :=
  importBlocksSpecGo env t c none hs.enum

/-- Candidate tip hash for the tie-break counterexample: byte 31 is 1, so
its little-endian integer value is `256^31`. -/
def cexCandTip : Hash := List.replicate 31 0 ++ [1]

/-- Current tip hash for the tie-break counterexample: byte 0 is 1, so its
little-endian integer value is 1. -/
def cexCurTip : Hash := 1 :: List.replicate 31 0

/-- Environment with an injective hash function (each header's fields are
embedded in the hash), for witnesses of the hash-collision-free
invariants. -/
def wEnv : Env :=
  { bitcoin_hash := fun h => [h.time, h.bits, h.nonce, h.prev_blockhash.length]
      ++ h.prev_blockhash,
    target_from_bits := fun b => b,
    compact_target_from_u256 := fun t => t,
    work := fun _ => 1,
    next_difficulty_target := fun _ _ t _ => t,
    pow_limit_bits := fun _ => 1000000 }

/-- Fixture cache built with the injective-hash environment. -/
def wS0 : BlockCache := (fromStore wEnv gHeader [] tParams []).getD dummyCache

/-- Fixture cache with a checkpoint at height 1 that `h1B` misses. -/
def sCp : BlockCache := (fromStore tEnv gHeader [] tParams [(1, [99])]).getD dummyCache

/-- Parameters with the min-difficulty rule enabled. -/
def pMin : Params := { tParams with allow_min_difficulty_blocks := true }

/-- Fixture cache under the min-difficulty parameters. -/
def sMin : BlockCache := (fromStore tEnv gHeader [] pMin []).getD dummyCache

/-- A header whose time exceeds its parent's by more than twice the target
spacing (the min-difficulty exception applies to it). -/
def hFast : BlockHeader := ⟨[7], 2300, 1000000, 8⟩

/-! Association-list lemmas. -/

theorem keysOf_aremove {κ β : Type} [DecidableEq κ] (m : List (κ × β)) (q : κ) :
    keysOf (aremove m q) = (keysOf m).filter (fun k => decide (k ≠ q)) := by
  induction m with
  | nil => rfl
  | cons p rest ih =>
    by_cases hp : p.1 = q
    · simp [aremove, keysOf, List.filter_cons, hp] at ih ⊢
      exact ih
    · simp [aremove, keysOf, List.filter_cons, hp] at ih ⊢
      exact ih

theorem mem_keysOf_aremove {κ β : Type} [DecidableEq κ] {m : List (κ × β)} {q x : κ} :
    x ∈ keysOf (aremove m q) ↔ x ∈ keysOf m ∧ x ≠ q := by
  rw [keysOf_aremove, List.mem_filter]
  simp

theorem nodup_keysOf_aremove {κ β : Type} [DecidableEq κ] {m : List (κ × β)} {q : κ}
    (h : (keysOf m).Nodup) : (keysOf (aremove m q)).Nodup := by
  rw [keysOf_aremove]
  exact h.filter _

theorem mem_keysOf_ainsert {κ β : Type} [DecidableEq κ] {m : List (κ × β)} {q x : κ} {v : β} :
    x ∈ keysOf (ainsert m q v) ↔ x = q ∨ x ∈ keysOf m := by
  simp only [ainsert, keysOf, List.map_cons, List.mem_cons]
  constructor
  · rintro (h | h)
    · exact Or.inl h
    · exact Or.inr (mem_keysOf_aremove.mp h).1
  · rintro (h | h)
    · exact Or.inl h
    · by_cases hq : x = q
      · exact Or.inl hq
      · exact Or.inr (mem_keysOf_aremove.mpr ⟨h, hq⟩)

theorem nodup_keysOf_ainsert {κ β : Type} [DecidableEq κ] {m : List (κ × β)} {q : κ} {v : β}
    (h : (keysOf m).Nodup) : (keysOf (ainsert m q v)).Nodup := by
  simp only [ainsert, keysOf, List.map_cons, List.nodup_cons]
  refine ⟨fun hx => ?_, nodup_keysOf_aremove h⟩
  exact (mem_keysOf_aremove.mp hx).2 rfl

theorem alookup_isSome_iff {κ β : Type} [DecidableEq κ] {m : List (κ × β)} {q : κ} :
    (alookup m q).isSome = true ↔ q ∈ keysOf m := by
  induction m with
  | nil => simp [alookup, keysOf]
  | cons p rest ih =>
    by_cases hq : q = p.1
    · simp [alookup, keysOf, hq]
    · simp [alookup, keysOf, hq, ih]

theorem alookup_eq_none_iff {κ β : Type} [DecidableEq κ] {m : List (κ × β)} {q : κ} :
    alookup m q = none ↔ q ∉ keysOf m := by
  rw [← alookup_isSome_iff]
  cases alookup m q <;> simp

theorem alookup_aremove_ne {κ β : Type} [DecidableEq κ] {m : List (κ × β)} {q x : κ}
    (h : x ≠ q) : alookup (aremove m q) x = alookup m x := by
  induction m with
  | nil => rfl
  | cons p rest ih =>
    by_cases hp : p.1 = q
    · have hx : x ≠ p.1 := by rw [hp]; exact h
      simp [aremove, List.filter_cons, hp, alookup, hx, h] at ih ⊢
      exact ih
    · by_cases hx : x = p.1
      · simp [aremove, List.filter_cons, hp, alookup, hx]
      · simp [aremove, List.filter_cons, hp, alookup, hx] at ih ⊢
        exact ih

theorem alookup_ainsert_ne {κ β : Type} [DecidableEq κ] {m : List (κ × β)} {q x : κ} {v : β}
    (h : x ≠ q) : alookup (ainsert m q v) x = alookup m x := by
  simp only [ainsert, alookup, if_neg h]
  exact alookup_aremove_ne h

theorem mem_keysOf_foldl_aremove {β : Type} (ds : List CachedBlock) :
    ∀ (m : List (Hash × β)) (x : Hash),
      x ∈ keysOf (ds.foldl (fun m b => aremove m b.hash) m) ↔
        x ∈ keysOf m ∧ x ∉ ds.map CachedBlock.hash := by
  induction ds with
  | nil => intro m x; simp
  | cons d rest ih =>
    intro m x
    simp only [List.foldl_cons, List.map_cons, List.mem_cons]
    rw [ih, mem_keysOf_aremove]
    constructor
    · rintro ⟨⟨h1, h2⟩, h3⟩
      exact ⟨h1, by tauto⟩
    · rintro ⟨h1, h2⟩
      push_neg at h2
      exact ⟨⟨h1, h2.1⟩, h2.2⟩

theorem nodup_keysOf_foldl_aremove {β : Type} (ds : List CachedBlock) :
    ∀ (m : List (Hash × β)), (keysOf m).Nodup →
      (keysOf (ds.foldl (fun m b => aremove m b.hash) m)).Nodup := by
  induction ds with
  | nil => intro m h; exact h
  | cons d rest ih => intro m h; exact ih _ (nodup_keysOf_aremove h)

theorem mem_keysOf_foldl_ainsert (ds : List CachedBlock) :
    ∀ (m : List (Hash × BlockHeader)) (x : Hash),
      x ∈ keysOf (ds.foldl (fun m b => ainsert m b.hash b.header) m) ↔
        x ∈ keysOf m ∨ x ∈ ds.map CachedBlock.hash := by
  induction ds with
  | nil => intro m x; simp
  | cons d rest ih =>
    intro m x
    simp only [List.foldl_cons, List.map_cons, List.mem_cons]
    rw [ih, mem_keysOf_ainsert]
    tauto

/-! Chain-structure lemmas. -/

theorem lastHash_nil (p : Hash) : lastHash p [] = p := rfl

theorem lastHash_cons (p : Hash) (b : CachedBlock) (t : List CachedBlock) :
    lastHash p (b :: t) = lastHash b.hash t := by
  cases t <;> simp [lastHash, List.getLast?]

theorem linked_append {t1 t2 : List CachedBlock} : ∀ {p : Hash} {n : Nat},
    linked p n (t1 ++ t2) ↔
      linked p n t1 ∧ linked (lastHash p t1) (n + t1.length) t2 := by
  induction t1 with
  | nil =>
    intro p n
    simp [linked, lastHash_nil]
  | cons b t1 ih =>
    intro p n
    rw [List.cons_append]
    show (b.header.prev_blockhash = p ∧ b.height = n ∧ linked b.hash (n + 1) (t1 ++ t2)) ↔ _
    rw [ih, lastHash_cons, List.length_cons,
      show n + (t1.length + 1) = n + 1 + t1.length from by omega]
    show _ ↔ (b.header.prev_blockhash = p ∧ b.height = n ∧ linked b.hash (n + 1) t1) ∧ _
    tauto

theorem linked_take {p : Hash} {n : Nat} {t : List CachedBlock} (h : linked p n t) (k : Nat) :
    linked p n (t.take k) := by
  have hsplit := List.take_append_drop k t
  rw [← hsplit] at h
  exact (linked_append.mp h).1

theorem linked_height {t : List CachedBlock} : ∀ {p : Hash} {n : Nat}, linked p n t →
    ∀ k (hk : k < t.length), (t.get ⟨k, hk⟩).height = n + k := by
  induction t with
  | nil =>
    intro p n _ k hk
    exact absurd hk (by simp)
  | cons b rest ih =>
    intro p n h k hk
    cases k with
    | zero => exact h.2.1
    | succ k =>
      have hk2 : k < rest.length := by
        simp only [List.length_cons] at hk
        omega
      have hstep := ih h.2.2 k hk2
      show (rest.get ⟨k, hk2⟩).height = n + (k + 1)
      rw [hstep]
      omega

theorem linked_prev_zero {t : List CachedBlock} {p : Hash} {n : Nat} (h : linked p n t)
    (hk : 0 < t.length) : (t.get ⟨0, hk⟩).header.prev_blockhash = p := by
  match t with
  | b :: rest => exact h.1

theorem linked_prev_succ {t : List CachedBlock} : ∀ {p : Hash} {n : Nat}, linked p n t →
    ∀ k (hk : k + 1 < t.length),
      (t.get ⟨k + 1, hk⟩).header.prev_blockhash = (t.get ⟨k, by omega⟩).hash := by
  induction t with
  | nil =>
    intro p n _ k hk
    exact absurd hk (by simp)
  | cons b rest ih =>
    intro p n h k hk
    cases k with
    | zero =>
      have h0 : 0 < rest.length := by
        simp only [List.length_cons] at hk
        omega
      exact linked_prev_zero h.2.2 h0
    | succ k =>
      have hk2 : k + 1 < rest.length := by
        simp only [List.length_cons] at hk
        omega
      exact ih h.2.2 k hk2

theorem linked_map_prev {t : List CachedBlock} : ∀ {p : Hash} {n : Nat}, linked p n t →
    t.map (fun b => b.header.prev_blockhash) = (p :: t.map CachedBlock.hash).dropLast := by
  induction t with
  | nil =>
    intro p n _
    simp
  | cons b rest ih =>
    intro p n h
    simp only [List.map_cons, List.dropLast_cons₂]
    rw [h.1, ih h.2.2]

theorem getLastD_hash_getLast? : ∀ (t : List CachedBlock) (d : CachedBlock),
    some ((t.getLastD d).hash) = ((d :: t).map CachedBlock.hash).getLast? := by
  intro t
  induction t with
  | nil => intro d; rfl
  | cons b rest ih =>
    intro d
    rw [List.getLastD_cons, ih b]
    simp only [List.map_cons]
    rw [List.getLast?_cons_cons]

theorem linked_getLastD_height {t : List CachedBlock} : ∀ {p : Hash} {n : Nat} {d : CachedBlock},
    linked p n t → t ≠ [] → (t.getLastD d).height = n + t.length - 1 := by
  induction t with
  | nil =>
    intro p n d _ hne
    exact absurd rfl hne
  | cons b rest ih =>
    intro p n d h _
    rw [List.getLastD_cons]
    cases rest with
    | nil => exact h.2.1.trans (by simp)
    | cons b2 rest2 =>
      have hstep := ih (d := b) h.2.2 (by simp)
      rw [hstep]
      simp only [List.length_cons]
      omega

theorem StructInv_tip_height {env : Env} {g : BlockHeader} {c : BlockCache}
    (h : StructInv env g c) : (tipCB c).height = c.chain_tail.length := by
  by_cases hne : c.chain_tail = []
  · simp only [tipCB, hne, List.getLastD_nil]
    rw [h.1]
    rfl
  · have hstep := linked_getLastD_height (d := c.chain_head) h.2 hne
    have hpos : 0 < c.chain_tail.length := List.length_pos.mpr hne
    show (c.chain_tail.getLastD c.chain_head).height = c.chain_tail.length
    omega

theorem tipHash_getLast? (c : BlockCache) : some (tipHash c) = (chainHashes c).getLast? := by
  simp only [tipHash, tipCB, chainHashes, chainList]
  exact getLastD_hash_getLast? c.chain_tail c.chain_head

theorem getLastD_hash_eq_lastHash : ∀ (t : List CachedBlock) (d : CachedBlock),
    (t.getLastD d).hash = lastHash d.hash t := by
  intro t
  induction t with
  | nil => intro d; rfl
  | cons b rest ih =>
    intro d
    rw [List.getLastD_cons, lastHash_cons]
    exact ih b

theorem tipHash_eq_lastHash (c : BlockCache) :
    tipHash c = lastHash c.chain_head.hash c.chain_tail := by
  simp only [tipHash, tipCB]
  exact getLastD_hash_eq_lastHash c.chain_tail c.chain_head

theorem tipCB_mem (c : BlockCache) : tipCB c ∈ chainList c := by
  simp only [tipCB, chainList]
  have hgen : ∀ (t : List CachedBlock) (d : CachedBlock), t.getLastD d ∈ d :: t := by
    intro t
    induction t with
    | nil => intro d; simp
    | cons b rest ih =>
      intro d
      rw [List.getLastD_cons]
      have := ih b
      simp only [List.mem_cons] at this ⊢
      tauto
  exact hgen c.chain_tail c.chain_head

theorem chainList_length (c : BlockCache) :
    (chainList c).length = c.chain_tail.length + 1 := by
  simp [chainList]

/-! Characterizations of the primitive chain mutations. -/

theorem extend_chain_some_iff {c : BlockCache} {n : Nat} {hs : Hash} {hd : BlockHeader}
    {c' : BlockCache} :
    extend_chain c n hs hd = some c' ↔
      hd.prev_blockhash = tipHash c ∧
      c' = { c with
        headers := ainsert c.headers hs n,
        orphans := aremove c.orphans hs,
        chain_tail := c.chain_tail ++ [⟨n, hs, hd⟩] } := by
  unfold extend_chain
  by_cases h : hd.prev_blockhash = tipHash c
  · simp only [h, if_true, Option.some_inj, true_and]
    constructor
    · intro he; exact he.symm
    · intro he; exact he.symm
  · simp [h]

theorem rollback_some_iff {c : BlockCache} {n : Nat} {c' : BlockCache}
    {stale : List BlockHeader} :
    rollback c n = some (c', stale) ↔
      n ≤ c.chain_tail.length ∧
      c' = { c with
        chain_tail := c.chain_tail.take n,
        headers := (c.chain_tail.drop n).foldl (fun m b => aremove m b.hash) c.headers,
        orphans := (c.chain_tail.drop n).foldl (fun m b => ainsert m b.hash b.header) c.orphans,
        store := c.store.take (n + 1) } ∧
      stale = (c.chain_tail.drop n).map (fun b => b.header) := by
  unfold rollback
  by_cases h : n ≤ c.chain_tail.length
  · simp only [h, if_true, Option.some_inj, Prod.mk.injEq, true_and]
    constructor
    · rintro ⟨h1, h2⟩; exact ⟨h1.symm, h2.symm⟩
    · rintro ⟨h1, h2⟩; exact ⟨h1.symm, h2.symm⟩
  · simp [h]

/-! StructInv preservation for the primitives. -/

theorem StructInv_extend {env : Env} {g : BlockHeader} {c : BlockCache} {n : Nat}
    {hs : Hash} {hd : BlockHeader} {c' : BlockCache}
    (hP : StructInv env g c) (hn : n = (chainList c).length)
    (hx : extend_chain c n hs hd = some c') :
    StructInv env g c' ∧ (chainList c').length = (chainList c).length + 1 := by
  obtain ⟨hprev, hc'⟩ := extend_chain_some_iff.mp hx
  subst hc'
  constructor
  · refine ⟨hP.1, ?_⟩
    rw [linked_append]
    refine ⟨hP.2, ?_⟩
    simp only [linked]
    refine ⟨?_, ?_, trivial⟩
    · rw [hprev, tipHash_eq_lastHash]
    · rw [hn, chainList_length]
      omega
  · simp [chainList_length]

theorem StructInv_rollback {env : Env} {g : BlockHeader} {c : BlockCache} {n : Nat}
    {c' : BlockCache} {stale : List BlockHeader}
    (hP : StructInv env g c) (hx : rollback c n = some (c', stale)) :
    StructInv env g c' ∧ (chainList c').length = n + 1 := by
  obtain ⟨hle, hc', _⟩ := rollback_some_iff.mp hx
  subst hc'
  refine ⟨⟨hP.1, linked_take hP.2 n⟩, ?_⟩
  rw [chainList_length]
  simp only [List.length_take]
  omega

/-! Generic preservation of a predicate through the public operations,
given that the primitive mutations preserve it.  The hypotheses are:
store writes and orphan stashes (under a fresh key) preserve `P`, `P`
pins the tip height to the chain length, and `extend_chain` at the chain
length and `rollback` preserve `P` with the expected length change. -/

def PExt (env : Env) (P : BlockCache → Prop) : Prop :=
  ∀ c hd c', P c →
    extend_chain c (chainList c).length (env.bitcoin_hash hd) hd = some c' →
    P c' ∧ (chainList c').length = (chainList c).length + 1

def PRoll (P : BlockCache → Prop) : Prop :=
  ∀ c n c' stale, P c → rollback c n = some (c', stale) →
    P c' ∧ (chainList c').length = n + 1

def PStore (P : BlockCache → Prop) : Prop :=
  ∀ c s, P c → P { c with store := s }

def POrph (P : BlockCache → Prop) : Prop :=
  ∀ c k v, P c → (alookup c.headers k).isSome = false →
    P { c with orphans := ainsert c.orphans k v }

def PTip (P : BlockCache → Prop) : Prop :=
  ∀ c, P c → (tipCB c).height + 1 = (chainList c).length

theorem pres_extendLoop {env : Env} {P : BlockCache → Prop} (Hext : PExt env P) :
    ∀ (hs : List BlockHeader) (c : BlockCache) (base i : Nat) (c' : BlockCache),
    P c → (chainList c).length = base + i + 1 →
    extendLoop env c base hs i = some c' →
    P c' ∧ (chainList c').length = base + i + 1 + hs.length := by
  intro hs
  induction hs with
  | nil =>
    intro c base i c' hP hlen hx
    simp only [extendLoop, Option.some_inj] at hx
    subst hx
    simp [hP, hlen]
  | cons h rest ih =>
    intro c base i c' hP hlen hx
    simp only [extendLoop] at hx
    rw [show base + i + 1 = (chainList c).length from hlen.symm] at hx
    cases he : extend_chain c (chainList c).length (env.bitcoin_hash h) h with
    | none => rw [he] at hx; exact absurd hx (by simp)
    | some c1 =>
      rw [he] at hx
      obtain ⟨hP1, hlen1⟩ := Hext c h c1 hP he
      have hrec := ih c1 base (i + 1) c' hP1 (by omega) hx
      refine ⟨hrec.1, ?_⟩
      rw [hrec.2]
      simp only [List.length_cons]
      omega

theorem pres_switch {env : Env} {P : BlockCache → Prop} (Hstore : PStore P) (Hext : PExt env P)
    (Hroll : PRoll P) :
    ∀ (c : BlockCache) (b : Candidate) (c' : BlockCache) (stale : List BlockHeader),
    P c → switch_to_fork env c b = some (c', stale) → P c' := by
  intro c b c' stale hP hx
  simp only [switch_to_fork] at hx
  cases hr : rollback c b.fork_height with
  | none => rw [hr] at hx; exact absurd hx (by simp)
  | some cs =>
    obtain ⟨c1, st⟩ := cs
    rw [hr] at hx
    dsimp only at hx
    obtain ⟨hP1, hlen1⟩ := Hroll c b.fork_height c1 st hP hr
    cases hl : extendLoop env c1 b.fork_height b.headers 0 with
    | none => rw [hl] at hx; exact absurd hx (by simp)
    | some c2 =>
      rw [hl] at hx
      dsimp only at hx
      simp only [Option.some_inj, Prod.mk.injEq] at hx
      obtain ⟨hc', _⟩ := hx
      subst hc'
      have hrec := pres_extendLoop Hext b.headers c1 b.fork_height 0 c2 hP1 (by omega) hl
      exact Hstore _ _ hrec.1

theorem pres_activate {env : Env} {P : BlockCache → Prop} (Hstore : PStore P) (Hext : PExt env P)
    (Hroll : PRoll P) :
    ∀ (cands : List Candidate) (c c' : BlockCache),
    P c → activateLoop env c cands = some c' → P c' := by
  intro cands
  induction cands with
  | nil =>
    intro c c' hP hx
    simp only [activateLoop, Option.some_inj] at hx
    subst hx
    exact hP
  | cons b rest ih =>
    intro c c' hP hx
    simp only [activateLoop] at hx
    cases hcs : chain_suffix c b.fork_height with
    | none => rw [hcs] at hx; exact absurd hx (by simp)
    | some suffix =>
      rw [hcs] at hx
      dsimp only at hx
      by_cases hsw : switchCond c.params (branchWork env b.headers)
          (branchWork env (suffix.map (fun blk => blk.header))) b.tip (tipHash c) = true
      · rw [if_pos hsw] at hx
        cases hst : switch_to_fork env c b with
        | none => rw [hst] at hx; exact absurd hx (by simp)
        | some cs =>
          obtain ⟨c1, st⟩ := cs
          rw [hst] at hx
          dsimp only at hx
          exact ih c1 c' (pres_switch Hstore Hext Hroll c b c1 st hP hst) hx
      · rw [if_neg hsw] at hx
        exact ih c c' hP hx

/-! Inversion of the classification phase. -/

theorem phase1_extended_inv {env : Env} {c : BlockCache} {h : BlockHeader} {t : Nat}
    {c1 : BlockCache} (hx : phase1 env c h t = .extended c1) :
    ∃ c0, h.prev_blockhash = (tipCB c).hash ∧
      validate env c (tipCB c) h t = some (.ok ()) ∧
      extend_chain c ((tipCB c).height + 1) (env.bitcoin_hash h) h = some c0 ∧
      c1 = { c0 with store := c0.store ++ [h] } := by
  simp only [phase1] at hx
  split at hx
  · rename_i hprev
    cases hv : validate env c (tipCB c) h t with
    | none => rw [hv] at hx; exact absurd hx (by simp)
    | some r =>
      rw [hv] at hx
      cases r with
      | error e => exact absurd hx (by simp)
      | ok u =>
        dsimp only at hx
        cases he : extend_chain c ((tipCB c).height + 1) (env.bitcoin_hash h) h with
        | none => rw [he] at hx; exact absurd hx (by simp)
        | some c0 =>
          rw [he] at hx
          dsimp only at hx
          cases hx
          cases u
          exact ⟨c0, hprev, rfl, rfl, rfl⟩
  · split at hx
    · exact absurd hx (by simp)
    · split at hx
      · exact absurd hx (by simp)
      · split at hx
        · exact absurd hx (by simp)
        · exact absurd hx (by simp)
        · split at hx
          · exact absurd hx (by simp)
          · exact absurd hx (by simp)

theorem phase1_stashed_inv {env : Env} {c : BlockCache} {h : BlockHeader} {t : Nat}
    {c1 : BlockCache} (hx : phase1 env c h t = .stashed c1) :
    c1 = { c with orphans := ainsert c.orphans (env.bitcoin_hash h) h } ∧
    (alookup c.headers (env.bitcoin_hash h)).isSome = false ∧
    (alookup c.orphans (env.bitcoin_hash h)).isSome = false ∧
    h.prev_blockhash ≠ (tipCB c).hash := by
  simp only [phase1] at hx
  split at hx
  · rename_i hprev
    cases hv : validate env c (tipCB c) h t with
    | none => rw [hv] at hx; exact absurd hx (by simp)
    | some r =>
      rw [hv] at hx
      cases r with
      | error e => exact absurd hx (by simp)
      | ok u =>
        dsimp only at hx
        cases he : extend_chain c ((tipCB c).height + 1) (env.bitcoin_hash h) h with
        | none => rw [he] at hx; exact absurd hx (by simp)
        | some c0 => rw [he] at hx; exact absurd hx (by simp)
  · rename_i hprev
    split at hx
    · exact absurd hx (by simp)
    · rename_i hdup
      split at hx
      · exact absurd hx (by simp)
      · split at hx
        · exact absurd hx (by simp)
        · exact absurd hx (by simp)
        · split at hx
          · exact absurd hx (by simp)
          · cases hx
            simp only [Bool.or_eq_true, not_or, Bool.not_eq_true] at hdup
            exact ⟨rfl, hdup.1, hdup.2, hprev⟩

/-! Preservation through the public operations. -/

theorem pres_phase1 {env : Env} {P : BlockCache → Prop} (Hstore : PStore P) (Horph : POrph P)
    (Htip : PTip P) (Hext : PExt env P) :
    ∀ c h t c1, P c →
    (phase1 env c h t = .extended c1 ∨ phase1 env c h t = .stashed c1) → P c1 := by
  intro c h t c1 hP hx
  cases hx with
  | inl hx =>
    obtain ⟨c0, hprev, hv, he, hc1⟩ := phase1_extended_inv hx
    rw [Htip c hP] at he
    subst hc1
    exact Hstore _ _ (Hext c h c0 hP he).1
  | inr hx =>
    obtain ⟨hc1, hdup, _, _⟩ := phase1_stashed_inv hx
    subst hc1
    exact Horph _ _ _ hP hdup

theorem pres_importRest {env : Env} {P : BlockCache → Prop} (Hstore : PStore P)
    (Hext : PExt env P) (Hroll : PRoll P) :
    ∀ c1 h best t c' r, P c1 → importRest env c1 h best t = some (c', r) → P c' := by
  intro c1 h best t c' r hP hx
  simp only [importRest] at hx
  cases hcc : chain_candidates env c1 t with
  | none => rw [hcc] at hx; exact absurd hx (by simp)
  | some cands =>
    rw [hcc] at hx
    dsimp only at hx
    by_cases hg : (cands.isEmpty && (alookup c1.headers h.prev_blockhash).isNone
        && (alookup c1.orphans h.prev_blockhash).isNone) = true
    · rw [if_pos hg] at hx
      simp only [Option.some_inj, Prod.mk.injEq] at hx
      obtain ⟨hc', _⟩ := hx
      subst hc'
      exact hP
    · rw [if_neg hg] at hx
      cases hal : activateLoop env c1 cands with
      | none => rw [hal] at hx; exact absurd hx (by simp)
      | some c2 =>
        rw [hal] at hx
        dsimp only at hx
        have hP2 := pres_activate Hstore Hext Hroll cands c1 c2 hP hal
        by_cases hne : tipHash c2 ≠ best
        · rw [if_pos hne] at hx
          simp only [Option.some_inj, Prod.mk.injEq] at hx
          obtain ⟨hc', _⟩ := hx
          subst hc'
          exact hP2
        · rw [if_neg hne] at hx
          simp only [Option.some_inj, Prod.mk.injEq] at hx
          obtain ⟨hc', _⟩ := hx
          subst hc'
          exact hP2

theorem pres_import_block {env : Env} {P : BlockCache → Prop} (Hstore : PStore P)
    (Horph : POrph P) (Htip : PTip P) (Hext : PExt env P) (Hroll : PRoll P) :
    ∀ c h t c' r, P c → import_block env c h t = some (c', r) → P c' := by
  intro c h t c' r hP hx
  simp only [import_block] at hx
  cases hph : phase1 env c h t with
  | panicked => rw [hph] at hx; exact absurd hx (by simp)
  | failed e =>
    rw [hph] at hx
    simp only [Option.some_inj, Prod.mk.injEq] at hx
    obtain ⟨hc', _⟩ := hx
    subst hc'
    exact hP
  | extended c1 =>
    rw [hph] at hx
    exact pres_importRest Hstore Hext Hroll c1 h (tipHash c) t c' r
      (pres_phase1 Hstore Horph Htip Hext c h t c1 hP (Or.inl hph)) hx
  | stashed c1 =>
    rw [hph] at hx
    exact pres_importRest Hstore Hext Hroll c1 h (tipHash c) t c' r
      (pres_phase1 Hstore Horph Htip Hext c h t c1 hP (Or.inr hph)) hx

theorem pres_extend_tip {env : Env} {P : BlockCache → Prop} (Hstore : PStore P)
    (Htip : PTip P) (Hext : PExt env P) :
    ∀ c h t c' r, P c → extend_tip env c h t = some (c', r) → P c' := by
  intro c h t c' r hP hx
  simp only [extend_tip] at hx
  split at hx
  · cases hv : validate env c (tipCB c) h t with
    | none => rw [hv] at hx; exact absurd hx (by simp)
    | some res =>
      rw [hv] at hx
      cases res with
      | error e =>
        dsimp only at hx
        simp only [Option.some_inj, Prod.mk.injEq] at hx
        obtain ⟨hc', _⟩ := hx
        subst hc'
        exact hP
      | ok u =>
        dsimp only at hx
        cases he : extend_chain c ((tipCB c).height + 1) (env.bitcoin_hash h) h with
        | none => rw [he] at hx; exact absurd hx (by simp)
        | some c0 =>
          rw [he] at hx
          dsimp only at hx
          simp only [Option.some_inj, Prod.mk.injEq] at hx
          obtain ⟨hc', _⟩ := hx
          subst hc'
          rw [Htip c hP] at he
          exact Hstore _ _ (Hext c h c0 hP he).1
  · simp only [Option.some_inj, Prod.mk.injEq] at hx
    obtain ⟨hc', _⟩ := hx
    subst hc'
    exact hP

theorem pres_importBlocksGo {env : Env} {P : BlockCache → Prop} (Hstore : PStore P)
    (Horph : POrph P) (Htip : PTip P) (Hext : PExt env P) (Hroll : PRoll P) {t : Nat} :
    ∀ hs c i last c' r, P c → importBlocksGo env t c i last hs = some (c', r) → P c' := by
  intro hs
  induction hs with
  | nil =>
    intro c i last c' r hP hx
    simp only [importBlocksGo, Option.some_inj, Prod.mk.injEq] at hx
    obtain ⟨hc', _⟩ := hx
    subst hc'
    exact hP
  | cons h rest ih =>
    intro c i last c' r hP hx
    simp only [importBlocksGo] at hx
    cases himp : import_block env c h t with
    | none => rw [himp] at hx; exact absurd hx (by simp)
    | some cr =>
      obtain ⟨c1, res⟩ := cr
      rw [himp] at hx
      have hP1 := pres_import_block Hstore Horph Htip Hext Hroll c h t c1 res hP himp
      cases res with
      | ok r0 =>
        dsimp only at hx
        exact ih c1 (i + 1) (some r0) c' r hP1 hx
      | error e =>
        cases e with
        | DuplicateBlock a => dsimp only at hx; exact ih c1 (i + 1) last c' r hP1 hx
        | BlockMissing a => dsimp only at hx; exact ih c1 (i + 1) last c' r hP1 hx
        | InvalidBlockHeight a =>
          dsimp only at hx
          simp only [Option.some_inj, Prod.mk.injEq] at hx
          obtain ⟨hc', _⟩ := hx
          subst hc'
          exact hP1
        | InvalidBlockPoW =>
          dsimp only at hx
          simp only [Option.some_inj, Prod.mk.injEq] at hx
          obtain ⟨hc', _⟩ := hx
          subst hc'
          exact hP1
        | InvalidBlockTarget a b =>
          dsimp only at hx
          simp only [Option.some_inj, Prod.mk.injEq] at hx
          obtain ⟨hc', _⟩ := hx
          subst hc'
          exact hP1
        | InvalidBlockHash a b =>
          dsimp only at hx
          simp only [Option.some_inj, Prod.mk.injEq] at hx
          obtain ⟨hc', _⟩ := hx
          subst hc'
          exact hP1
        | InvalidTimestamp a b =>
          dsimp only at hx
          simp only [Option.some_inj, Prod.mk.injEq] at hx
          obtain ⟨hc', _⟩ := hx
          subst hc'
          exact hP1
        | BlockImportAborted a b d =>
          dsimp only at hx
          simp only [Option.some_inj, Prod.mk.injEq] at hx
          obtain ⟨hc', _⟩ := hx
          subst hc'
          exact hP1

theorem pres_fromStore {env : Env} {P : BlockCache → Prop} (Hext : PExt env P)
    {g : BlockHeader} {params : Params} {cps : List (Nat × Hash)}
    {storeRest : List BlockHeader} {c : BlockCache}
    (Hinit : P (initCache env g params cps storeRest))
    (hx : fromStore env g storeRest params cps = some c) : P c := by
  simp only [fromStore] at hx
  cases hel : extendLoop env (initCache env g params cps storeRest) 0 storeRest 0 with
  | none => rw [hel] at hx; exact absurd hx (by simp)
  | some cmid =>
    rw [hel] at hx
    dsimp only at hx
    split at hx
    · simp only [Option.some_inj] at hx
      subst hx
      exact (pres_extendLoop Hext storeRest (initCache env g params cps storeRest) 0 0 _
        Hinit (by simp [chainList, initCache]) hel).1
    · exact absurd hx (by simp)

theorem pres_reachable {env : Env} {P : BlockCache → Prop} (Hstore : PStore P)
    (Horph : POrph P) (Htip : PTip P) (Hext : PExt env P) (Hroll : PRoll P)
    {g : BlockHeader} {params : Params} {cps : List (Nat × Hash)} {c : BlockCache}
    (Hinit : ∀ storeRest, P (initCache env g params cps storeRest))
    (hr : Reachable env g params cps c) : P c := by
  induction hr with
  | init storeRest c hx => exact pres_fromStore Hext (Hinit storeRest) hx
  | step_import c c' h t r hprev hx ih =>
    exact pres_import_block Hstore Horph Htip Hext Hroll c h t c' r ih hx
  | step_extend_tip c c' h t r hprev hx ih =>
    exact pres_extend_tip Hstore Htip Hext c h t c' r ih hx
  | step_import_blocks c c' hs t r hprev hx ih =>
    exact pres_importBlocksGo Hstore Horph Htip Hext Hroll hs c 0 none c' r ih hx

/-! Instantiation for the structural invariant. -/

theorem structInv_store {env : Env} {g : BlockHeader} : PStore (StructInv env g) := by
  intro c s hP
  exact hP

theorem structInv_orph {env : Env} {g : BlockHeader} : POrph (StructInv env g) := by
  intro c k v hP _
  exact hP

theorem structInv_tip {env : Env} {g : BlockHeader} : PTip (StructInv env g) := by
  intro c hP
  rw [StructInv_tip_height hP, chainList_length]

theorem structInv_ext {env : Env} {g : BlockHeader} : PExt env (StructInv env g) := by
  intro c hd c' hP hx
  exact StructInv_extend hP rfl hx

theorem structInv_roll {env : Env} {g : BlockHeader} : PRoll (StructInv env g) := by
  intro c n c' stale hP hx
  exact StructInv_rollback hP hx

theorem structInv_init {env : Env} {g : BlockHeader} {params : Params}
    {cps : List (Nat × Hash)} (storeRest : List BlockHeader) :
    StructInv env g (initCache env g params cps storeRest) := by
  exact ⟨rfl, trivial⟩

theorem reachable_structInv {env : Env} {g : BlockHeader} {params : Params}
    {cps : List (Nat × Hash)} {c : BlockCache}
    (hr : Reachable env g params cps c) : StructInv env g c :=
  pres_reachable structInv_store structInv_orph structInv_tip structInv_ext structInv_roll
    structInv_init hr

/-! The full invariant: freshness of a tip-extending hash and preservation. -/

theorem getLast?_not_mem_dropLast {L : List Hash} (hnd : L.Nodup) {x : Hash}
    (hx : L.getLast? = some x) : x ∉ L.dropLast := by
  cases L with
  | nil => simp at hx
  | cons a l =>
    have hne : (a :: l) ≠ [] := by simp
    rw [List.getLast?_eq_getLast_of_ne_nil hne] at hx
    injection hx with hx
    subst hx
    have hsplit := List.dropLast_append_getLast hne
    intro hmem
    rw [← hsplit] at hnd
    have hdisj := List.disjoint_of_nodup_append hnd
    exact hdisj hmem (by simp)

theorem fresh_hash {env : Env} {g : BlockHeader} {c : BlockCache} {hd : BlockHeader}
    (hinj : Function.Injective env.bitcoin_hash)
    (hgen : ∀ x, env.bitcoin_hash x ≠ g.prev_blockhash)
    (hF : FullInv env g c) (hprev : hd.prev_blockhash = tipHash c) :
    env.bitcoin_hash hd ∉ chainHashes c := by
  intro hmem
  obtain ⟨hS, hok, hnd, _, _, _⟩ := hF
  simp only [chainHashes, List.mem_map] at hmem
  obtain ⟨b, hb, hbh⟩ := hmem
  have hbhd : b.header = hd := hinj (by rw [← hok b hb, hbh])
  have hbprev : b.header.prev_blockhash
      ∈ (chainList c).map (fun x => x.header.prev_blockhash) :=
    List.mem_map_of_mem _ hb
  have hmp : (chainList c).map (fun x => x.header.prev_blockhash)
      = c.chain_head.header.prev_blockhash :: (chainHashes c).dropLast := by
    simp only [chainList, List.map_cons, chainHashes]
    rw [linked_map_prev hS.2]
  have hheadg : c.chain_head.header = g := by rw [hS.1]
  rw [hmp, hbhd, hprev] at hbprev
  cases List.mem_cons.mp hbprev with
  | inl heq =>
    have htip : tipHash c = env.bitcoin_hash (tipCB c).header := hok _ (tipCB_mem c)
    rw [hheadg] at heq
    exact hgen (tipCB c).header (by rw [← htip, heq])
  | inr hmemd =>
    have hlast := tipHash_getLast? c
    exact getLast?_not_mem_dropLast hnd hlast.symm hmemd

theorem fullInv_store {env : Env} {g : BlockHeader} : PStore (FullInv env g) := by
  intro c s hF
  exact hF

theorem fullInv_orph {env : Env} {g : BlockHeader} : POrph (FullInv env g) := by
  intro c k v hF hnmem
  refine ⟨hF.1, hF.2.1, hF.2.2.1, hF.2.2.2.1, hF.2.2.2.2.1, ?_⟩
  intro x hxk
  rw [mem_keysOf_ainsert]
  rintro (rfl | hmem)
  · have hsome := alookup_isSome_iff.mpr hxk
    rw [hnmem] at hsome
    exact absurd hsome (by simp)
  · exact hF.2.2.2.2.2 x hxk hmem

theorem fullInv_tip {env : Env} {g : BlockHeader} : PTip (FullInv env g) := by
  intro c hF
  exact structInv_tip c hF.1

theorem fullInv_ext {env : Env} {g : BlockHeader}
    (hinj : Function.Injective env.bitcoin_hash)
    (hgen : ∀ x, env.bitcoin_hash x ≠ g.prev_blockhash) : PExt env (FullInv env g) := by
  intro c hd c' hF hx
  obtain ⟨hprev, hc'⟩ := extend_chain_some_iff.mp hx
  have hfresh := fresh_hash hinj hgen hF hprev
  have hSx := StructInv_extend hF.1 rfl hx
  obtain ⟨hS, hok, hnd, hiff, hknd, hdisj⟩ := hF
  subst hc'
  have hcl : chainList { c with
      headers := ainsert c.headers (env.bitcoin_hash hd) (chainList c).length,
      orphans := aremove c.orphans (env.bitcoin_hash hd),
      chain_tail := c.chain_tail
        ++ [⟨(chainList c).length, env.bitcoin_hash hd, hd⟩] }
      = chainList c ++ [⟨(chainList c).length, env.bitcoin_hash hd, hd⟩] := by
    simp [chainList]
  have hch : chainHashes { c with
      headers := ainsert c.headers (env.bitcoin_hash hd) (chainList c).length,
      orphans := aremove c.orphans (env.bitcoin_hash hd),
      chain_tail := c.chain_tail
        ++ [⟨(chainList c).length, env.bitcoin_hash hd, hd⟩] }
      = chainHashes c ++ [env.bitcoin_hash hd] := by
    simp [chainHashes, hcl]
  refine ⟨⟨hSx.1, ?_, ?_, ?_, ?_, ?_⟩, hSx.2⟩
  · intro b hb
    rw [hcl] at hb
    cases List.mem_append.mp hb with
    | inl hb0 => exact hok b hb0
    | inr hb1 =>
      simp only [List.mem_singleton] at hb1
      subst hb1
      rfl
  · rw [hch, List.nodup_append]
    refine ⟨hnd, by simp, ?_⟩
    intro a ha hb
    simp only [List.mem_singleton] at hb
    subst hb
    exact hfresh ha
  · intro x
    rw [hch]
    show x ∈ keysOf (ainsert c.headers (env.bitcoin_hash hd) (chainList c).length) ↔ _
    rw [mem_keysOf_ainsert, List.mem_append, List.mem_singleton, hiff x]
    tauto
  · exact nodup_keysOf_ainsert hknd
  · intro x hxk
    have hxk2 : x = env.bitcoin_hash hd ∨ x ∈ keysOf c.headers := by
      rw [← mem_keysOf_ainsert (q := env.bitcoin_hash hd) (v := (chainList c).length)
        (m := c.headers)]
      exact hxk
    show x ∉ keysOf (aremove c.orphans (env.bitcoin_hash hd))
    rw [mem_keysOf_aremove]
    rintro ⟨hmem, hne⟩
    cases hxk2 with
    | inl heq => exact hne heq
    | inr hold => exact hdisj x hold hmem

theorem fullInv_roll {env : Env} {g : BlockHeader} : PRoll (FullInv env g) := by
  intro c n c' stale hF hx
  obtain ⟨hle, hc', _⟩ := rollback_some_iff.mp hx
  have hSx := StructInv_rollback hF.1 hx
  obtain ⟨hS, hok, hnd, hiff, hknd, hdisj⟩ := hF
  subst hc'
  have hsplit : chainHashes c
      = (c.chain_head.hash :: (c.chain_tail.take n).map CachedBlock.hash)
        ++ (c.chain_tail.drop n).map CachedBlock.hash := by
    simp only [chainHashes, chainList, List.map_cons, List.cons_append, List.cons.injEq,
      true_and]
    rw [← List.map_append, List.take_append_drop]
  have hndsplit := hsplit ▸ hnd
  have hdisjkd := List.disjoint_of_nodup_append hndsplit
  refine ⟨⟨hSx.1, ?_, ?_, ?_, ?_, ?_⟩, hSx.2⟩
  · intro b hb
    simp only [chainList, List.mem_cons] at hb
    cases hb with
    | inl hb0 => subst hb0; exact hok _ (by simp [chainList])
    | inr hb1 =>
      refine hok b ?_
      simp only [chainList, List.mem_cons]
      exact Or.inr (List.take_subset n c.chain_tail hb1)
  · show (c.chain_head.hash :: (c.chain_tail.take n).map CachedBlock.hash).Nodup
    exact List.Nodup.sublist (List.sublist_append_left _ _) hndsplit
  · intro x
    show x ∈ keysOf ((c.chain_tail.drop n).foldl (fun m b => aremove m b.hash) c.headers) ↔
      x ∈ c.chain_head.hash :: (c.chain_tail.take n).map CachedBlock.hash
    rw [mem_keysOf_foldl_aremove, hiff x, hsplit]
    constructor
    · rintro ⟨hmem, hnd2⟩
      cases List.mem_append.mp hmem with
      | inl hk => exact hk
      | inr hd2 => exact absurd hd2 hnd2
    · intro hk
      exact ⟨List.mem_append.mpr (Or.inl hk), fun hd2 => hdisjkd hk hd2⟩
  · exact nodup_keysOf_foldl_aremove _ _ hknd
  · intro x hxk
    show x ∉ keysOf ((c.chain_tail.drop n).foldl (fun m b => ainsert m b.hash b.header)
      c.orphans)
    rw [mem_keysOf_foldl_ainsert]
    have hxk2 := (mem_keysOf_foldl_aremove _ _ _).mp hxk
    rintro (hmem | hd2)
    · exact hdisj x hxk2.1 hmem
    · exact hxk2.2 hd2

theorem fullInv_init {env : Env} {g : BlockHeader} {params : Params}
    {cps : List (Nat × Hash)} (storeRest : List BlockHeader) :
    FullInv env g (initCache env g params cps storeRest) := by
  refine ⟨⟨rfl, trivial⟩, ?_, ?_, ?_, ?_, ?_⟩
  · intro b hb
    simp only [initCache, chainList, List.mem_cons, List.not_mem_nil, or_false] at hb
    subst hb
    rfl
  · simp [chainHashes, chainList, initCache]
  · intro x
    simp [initCache, keysOf, chainHashes, chainList]
  · simp [initCache, keysOf]
  · intro x hxk
    simp [initCache, keysOf]

theorem reachable_fullInv {env : Env} {g : BlockHeader} {params : Params}
    {cps : List (Nat × Hash)} {c : BlockCache}
    (hinj : Function.Injective env.bitcoin_hash)
    (hgen : ∀ x, env.bitcoin_hash x ≠ g.prev_blockhash)
    (hr : Reachable env g params cps c) : FullInv env g c :=
  pres_reachable fullInv_store fullInv_orph fullInv_tip (fullInv_ext hinj hgen) fullInv_roll
    fullInv_init hr

/-- Claim C2: in every state reachable from construction via the public
operations (`from`, `import_block`, `import_blocks`, `extend_tip`), the
active chain is non-empty, its element at index 0 is the genesis block at
height 0, and every element at index k has height k and (for k > 0) a
`prev_blockhash` equal to the hash of element k−1. -/
theorem claim_C2 (env : Env) (g : BlockHeader) (params : Params) (cps : List (Nat × Hash))
    (c : BlockCache) (hr : Reachable env g params cps c) :
    chainList c ≠ [] ∧
    (chainList c).head? = some ⟨0, env.bitcoin_hash g, g⟩ ∧
    (∀ k (hk : k < (chainList c).length), ((chainList c).get ⟨k, hk⟩).height = k) ∧
    (∀ k (hk : k + 1 < (chainList c).length),
      ((chainList c).get ⟨k + 1, hk⟩).header.prev_blockhash
        = ((chainList c).get ⟨k, by omega⟩).hash) := by
  have hS := reachable_structInv hr
  refine ⟨by simp [chainList], ?_, ?_, ?_⟩
  · simp only [chainList, List.head?_cons, Option.some_inj]
    exact hS.1
  · intro k hk
    cases k with
    | zero =>
      show c.chain_head.height = 0
      rw [hS.1]
    | succ k =>
      have hk2 : k < c.chain_tail.length := by
        rw [chainList_length] at hk
        omega
      have := linked_height hS.2 k hk2
      show (c.chain_tail.get ⟨k, hk2⟩).height = k + 1
      omega
  · intro k hk
    cases k with
    | zero =>
      have hk2 : 0 < c.chain_tail.length := by
        rw [chainList_length] at hk
        omega
      show (c.chain_tail.get ⟨0, hk2⟩).header.prev_blockhash = c.chain_head.hash
      exact linked_prev_zero hS.2 hk2
    | succ k =>
      have hk2 : k + 1 < c.chain_tail.length := by
        rw [chainList_length] at hk
        omega
      show (c.chain_tail.get ⟨k + 1, hk2⟩).header.prev_blockhash
        = (c.chain_tail.get ⟨k, by omega⟩).hash
      exact linked_prev_succ hS.2 k hk2

/-- Witness for C2 at a concrete reachable state. -/
theorem claim_C2_witness :
    (chainList s0fix).head? = some ⟨0, [7], gHeader⟩ ∧ chainList s0fix ≠ [] := by
  have hr : Reachable tEnv gHeader tParams [] s0fix := .init [] s0fix (by decide)
  have hc := claim_C2 tEnv gHeader tParams [] s0fix hr
  exact ⟨by rw [hc.2.1]; decide, hc.1⟩

/-- Claim C3: in every reachable state the key set of the headers index
equals the set of active-chain hashes, its size equals the chain length,
and the orphan pool's keys are disjoint from it.  The hashing primitive
is assumed injective (collision-free) and to never produce the genesis
header's `prev_blockhash` (an all-zero value in Bitcoin). -/
theorem claim_C3 (env : Env) (g : BlockHeader) (params : Params) (cps : List (Nat × Hash))
    (c : BlockCache) (hinj : Function.Injective env.bitcoin_hash)
    (hgen : ∀ x, env.bitcoin_hash x ≠ g.prev_blockhash)
    (hr : Reachable env g params cps c) :
    (∀ x, x ∈ keysOf c.headers ↔ x ∈ chainHashes c) ∧
    c.headers.length = (chainList c).length ∧
    (∀ x, ¬ (x ∈ keysOf c.headers ∧ x ∈ keysOf c.orphans)) := by
  have hF := reachable_fullInv hinj hgen hr
  obtain ⟨_, _, hnd, hiff, hknd, hdisj⟩ := hF
  refine ⟨hiff, ?_, ?_⟩
  · have hfs : (keysOf c.headers).toFinset = (chainHashes c).toFinset := by
      ext x
      simp only [List.mem_toFinset]
      exact hiff x
    have h1 : (keysOf c.headers).length = (chainHashes c).length := by
      calc (keysOf c.headers).length
          = (keysOf c.headers).toFinset.card := (List.toFinset_card_of_nodup hknd).symm
        _ = (chainHashes c).toFinset.card := by rw [hfs]
        _ = (chainHashes c).length := List.toFinset_card_of_nodup hnd
    have h2 : (keysOf c.headers).length = c.headers.length := by simp [keysOf]
    have h3 : (chainHashes c).length = (chainList c).length := by simp [chainHashes]
    omega
  · rintro x ⟨hx1, hx2⟩
    exact hdisj x hx1 hx2

theorem wEnv_inj : Function.Injective wEnv.bitcoin_hash := by
  intro a b hab
  simp only [wEnv, List.cons_append, List.nil_append, List.cons.injEq] at hab
  obtain ⟨h1, h2, h3, _, h5⟩ := hab
  cases a
  cases b
  simp_all

theorem wEnv_gen : ∀ x, wEnv.bitcoin_hash x ≠ gHeader.prev_blockhash := by
  intro x
  simp [wEnv, gHeader]

/-- Witness for C3 at a concrete reachable state under an injective hash
primitive. -/
theorem claim_C3_witness :
    wS0.headers.length = (chainList wS0).length ∧
    (∀ x, ¬ (x ∈ keysOf wS0.headers ∧ x ∈ keysOf wS0.orphans)) := by
  have hr : Reachable wEnv gHeader tParams [] wS0 := .init [] wS0 (by decide)
  have hc := claim_C3 wEnv gHeader tParams [] wS0 wEnv_inj wEnv_gen hr
  exact ⟨hc.2.1, hc.2.2⟩

/-- Counterexample to claim C1: with equal works on a non-mainnet network,
the code's tie-break (`switchCond`, lexicographic on the hash bytes)
switches on a candidate tip whose 256-bit little-endian integer value is
larger than the current tip's, so the claimed little-endian-integer
characterization of the switch is false at this input. -/
theorem claim_C1_counterexample :
    ¬ (switchCond tParams 1 1 cexCandTip cexCurTip = true ↔
      (1 < 1 ∨ (tParams.network ≠ Network.bitcoin ∧ 1 = 1 ∧
        leVal cexCandTip < leVal cexCurTip))) := by
  decide

/-- Claim C1, amended: the activation loop switches to a candidate exactly
when its cumulative work strictly exceeds the active suffix's, or—off
mainnet—when the works are equal and the candidate's tip hash is smaller
in the byte-wise lexicographic order of the hash arrays (not as
little-endian integers); on mainnet equal work never switches. -/
theorem claim_C1 (p : Params) (cw mw : Nat) (ct tt : Hash) :
    switchCond p cw mw ct tt = true ↔
      (mw < cw ∨ (p.network ≠ Network.bitcoin ∧ cw = mw ∧ lexLt ct tt = true)) := by
  unfold switchCond
  split_ifs with h1 h2 h3
  · exact iff_of_true rfl (Or.inl h1)
  · constructor
    · intro hl
      exact Or.inr ⟨h2, h3, hl⟩
    · rintro (hc | ⟨_, _, hl⟩)
      · exact absurd hc h1
      · exact hl
  · refine iff_of_false (by simp) ?_
    rintro (hc | ⟨_, heq, _⟩)
    · exact h1 hc
    · exact h3 heq
  · refine iff_of_false (by simp) ?_
    rintro (hc | ⟨hne, _, _⟩)
    · exact h1 hc
    · exact h2 hne

/-! Claim C6: median time past. -/

theorem insSorted_length (x : Nat) (l : List Nat) :
    (insSorted x l).length = l.length + 1 := by
  induction l with
  | nil => rfl
  | cons y ys ih =>
    by_cases hxy : x ≤ y
    · simp [insSorted, hxy]
    · simp [insSorted, hxy, ih]

theorem sortTimes_length (l : List Nat) : (sortTimes l).length = l.length := by
  induction l with
  | nil => rfl
  | cons x xs ih =>
    show (insSorted x (sortTimes xs)).length = xs.length + 1
    rw [insSorted_length, ih]

/-- Claim C6: for every height `0 < h ≤ height()`, `median_time_past h`
is the median of the times of the `min h 11` active-chain blocks at
heights strictly below `h` (the available prefix when `h < 11`);
`median_time_past 1` is the genesis time; height 0 is a precondition
violation that panics (modelled by `none`) rather than returning a
value. -/
theorem claim_C6 :
    (∀ (c : BlockCache) (h : Nat), 0 < h → h ≤ heightOf c →
      median_time_past c h = some (mtpSpec c h)) ∧
    (∀ c : BlockCache, median_time_past c 1 = some c.chain_head.header.time) ∧
    (∀ c : BlockCache, median_time_past c 0 = none) := by
  refine ⟨?_, ?_, fun c => rfl⟩
  case refine_2 =>
    intro c
    simp [median_time_past, chainList, MEDIAN_TIME_SPAN, sortTimes, insSorted]
  intro c h h0 hle
  have hnotz : ¬ h = 0 := by omega
  simp only [median_time_past, mtpSpec, medianOf, if_neg hnotz]
  have hlenfill : ((((chainList c).drop (h - MEDIAN_TIME_SPAN)).take
      (h - (h - MEDIAN_TIME_SPAN))).map (fun b => b.header.time)).length
      = h - (h - MEDIAN_TIME_SPAN) := by
    simp only [List.length_map, List.length_take, List.length_drop, chainList_length]
    have hle2 : h ≤ c.chain_tail.length := hle
    simp only [MEDIAN_TIME_SPAN]
    omega
  have hmin : min h MEDIAN_TIME_SPAN = h - (h - MEDIAN_TIME_SPAN) := by
    simp only [MEDIAN_TIME_SPAN]
    omega
  rw [hlenfill, Nat.sub_self, List.replicate_zero, List.append_nil, hmin,
    sortTimes_length, hlenfill]

/-- Witness for C6 at a concrete state of height 2. -/
theorem claim_C6_witness :
    0 < 2 ∧ 2 ≤ heightOf s2fix ∧
    median_time_past s2fix 2 = some (mtpSpec s2fix 2) ∧ mtpSpec s2fix 2 = 1600 :=
  ⟨by decide, by decide, claim_C6.1 s2fix 2 (by decide) (by decide), by decide⟩

/-! Claim C9: the batch import. -/

theorem importBlocksGo_eq_spec (env : Env) (t : Nat) :
    ∀ (hs : List BlockHeader) (c : BlockCache) (i : Nat) (last : Option ImportResult),
    importBlocksGo env t c i last hs = importBlocksSpecGo env t c last (hs.enumFrom i) := by
  intro hs
  induction hs with
  | nil => intro c i last; rfl
  | cons h rest ih =>
    intro c i last
    show importBlocksGo env t c i last (h :: rest)
      = importBlocksSpecGo env t c last ((i, h) :: rest.enumFrom (i + 1))
    simp only [importBlocksGo, importBlocksSpecGo]
    cases himp : import_block env c h t with
    | none => rfl
    | some cr =>
      obtain ⟨c1, res⟩ := cr
      cases res with
      | ok r => exact ih c1 (i + 1) (some r)
      | error e =>
        cases e with
        | DuplicateBlock a =>
          dsimp only [swallowed]
          rw [if_pos rfl]
          exact ih c1 (i + 1) last
        | BlockMissing a =>
          dsimp only [swallowed]
          rw [if_pos rfl]
          exact ih c1 (i + 1) last
        | InvalidBlockHeight a => rfl
        | InvalidBlockPoW => rfl
        | InvalidBlockTarget a b => rfl
        | InvalidBlockHash a b => rfl
        | InvalidTimestamp a b => rfl
        | BlockImportAborted a b d => rfl

/-- Claim C9: `import_blocks` folds `import_block` over the headers in
order, swallowing `DuplicateBlock` and `BlockMissing`, aborting on any
other error at batch index i with `BlockImportAborted(cause, i, height)`,
and returning the last successful result (`TipUnchanged` when none), as
the spec-worded `import_blocks_spec` states. -/
theorem claim_C9 (env : Env) (c : BlockCache) (hs : List BlockHeader) (t : Nat) :
    import_blocks env c hs t = import_blocks_spec env c hs t := by
  unfold import_blocks import_blocks_spec
  rw [importBlocksGo_eq_spec]
  rfl

/-! Claims C5 and C10: the validator. -/

theorem mtp_succ_isSome (c : BlockCache) (n : Nat) :
    ∃ m, median_time_past c (n + 1) = some m := by
  simp [median_time_past]

/-- Claim C5: past the proof-of-work check, `validate` fails with
`InvalidBlockHash(hash, height)` exactly when a checkpoint exists at the
target height and differs from the header's hash; past that, it fails
with `InvalidTimestamp(time, Less)` exactly when `time ≤
median_time_past(height)`, with `InvalidTimestamp(time, Greater)` exactly
when `time > clock + MAX_FUTURE_BLOCK_TIME`, and succeeds otherwise. -/
theorem claim_C5 (env : Env) (c : BlockCache) (tip : CachedBlock) (h : BlockHeader)
    (t m : Nat)
    (hprev : tip.hash = h.prev_blockhash)
    (hpow : validate_pow env h (requiredTarget env c tip h) = .ok ())
    (hmtp : median_time_past c (tip.height + 1) = some m) :
    ((∃ cp, alookup c.checkpoints (tip.height + 1) = some cp ∧ env.bitcoin_hash h ≠ cp) →
      validate env c tip h t
        = some (.error (.InvalidBlockHash (env.bitcoin_hash h) (tip.height + 1)))) ∧
    ((∀ cp, alookup c.checkpoints (tip.height + 1) = some cp → env.bitcoin_hash h = cp) →
      ((h.time ≤ m →
        validate env c tip h t = some (.error (.InvalidTimestamp h.time .lt))) ∧
       (h.time > m → h.time > t + MAX_FUTURE_BLOCK_TIME →
        validate env c tip h t = some (.error (.InvalidTimestamp h.time .gt))) ∧
       (h.time > m → h.time ≤ t + MAX_FUTURE_BLOCK_TIME →
        validate env c tip h t = some (.ok ())))) := by
  constructor
  · rintro ⟨cp, hcp, hne⟩
    simp only [validate, if_pos hprev, hpow, hcp]
    rw [if_pos hne]
  · intro hcpok
    have hcpnone : (match alookup c.checkpoints (tip.height + 1) with
        | some cp =>
            if env.bitcoin_hash h ≠ cp then
              some (Err.InvalidBlockHash (env.bitcoin_hash h) (tip.height + 1))
            else none
        | none => none) = (none : Option Err) := by
      cases halk : alookup c.checkpoints (tip.height + 1) with
      | none => rfl
      | some cp =>
        dsimp only
        rw [if_neg]
        intro hne
        exact hne (hcpok cp halk)
    refine ⟨?_, ?_, ?_⟩
    · intro hlt
      simp only [validate, if_pos hprev, hpow, hcpnone, hmtp]
      rw [if_pos hlt]
    · intro hgt1 hgt2
      simp only [validate, if_pos hprev, hpow, hcpnone, hmtp]
      rw [if_neg (by omega), if_pos hgt2]
    · intro hgt1 hle2
      simp only [validate, if_pos hprev, hpow, hcpnone, hmtp]
      rw [if_neg (by omega), if_neg (by omega)]

/-- Witness for C5: a checkpoint at height 1 that the imported header's
hash misses produces `InvalidBlockHash`. -/
theorem claim_C5_witness :
    validate tEnv sCp (tipCB sCp) h1B 10000
      = some (.error (.InvalidBlockHash [8] 1)) := by
  have hc := claim_C5 tEnv sCp (tipCB sCp) h1B 10000 1000 (by decide) (by rfl) (by decide)
  exact hc.1 ⟨[99], by decide, by decide⟩

/-- Claim C10: with `allow_min_difficulty_blocks` set, a child height off
the retarget boundary, and a header time exceeding the parent's by more
than twice the target spacing, `validate` selects `pow_limit` as the
target, checks the header against `pow_limit` round-tripped through the
compact encoding, and its proof-of-work outcome is exactly that of
validating against the round-tripped `pow_limit`. -/
theorem claim_C10 (env : Env) (c : BlockCache) (tip : CachedBlock) (h : BlockHeader) (t : Nat)
    (hmin : c.params.allow_min_difficulty_blocks = true)
    (hint : (tip.height + 1) % c.params.difficulty_adjustment_interval ≠ 0)
    (htime : h.time > tip.header.time + c.params.pow_target_spacing * 2) :
    selectTarget env c tip h = c.params.pow_limit ∧
    requiredTarget env c tip h
      = env.target_from_bits (env.compact_target_from_u256 c.params.pow_limit) ∧
    (tip.hash = h.prev_blockhash →
      (validate env c tip h t = some (.error .InvalidBlockPoW) ↔
        validate_pow env h
          (env.target_from_bits (env.compact_target_from_u256 c.params.pow_limit))
          = .error .badPoW)) := by
  have hsel : selectTarget env c tip h = c.params.pow_limit := by
    unfold selectTarget
    rw [if_pos ⟨hmin, hint⟩, if_pos htime]
  have hreq : requiredTarget env c tip h
      = env.target_from_bits (env.compact_target_from_u256 c.params.pow_limit) := by
    unfold requiredTarget
    rw [hsel]
  refine ⟨hsel, hreq, ?_⟩
  intro hprev
  simp only [validate, if_pos hprev, hreq]
  cases hvp : validate_pow env h
      (env.target_from_bits (env.compact_target_from_u256 c.params.pow_limit)) with
  | error pe =>
    cases pe with
    | badPoW => simp
    | badTarget => simp
  | ok u =>
    dsimp only
    obtain ⟨m, hm⟩ := mtp_succ_isSome c tip.height
    cases halk : alookup c.checkpoints (tip.height + 1) with
    | none =>
      dsimp only
      rw [hm]
      dsimp only
      constructor
      · intro hx
        by_cases h1 : h.time ≤ m
        · rw [if_pos h1] at hx
          exact absurd hx (by simp)
        · rw [if_neg h1] at hx
          by_cases h2 : h.time > t + MAX_FUTURE_BLOCK_TIME
          · rw [if_pos h2] at hx
            exact absurd hx (by simp)
          · rw [if_neg h2] at hx
            exact absurd hx (by simp)
      · intro hx
        exact absurd hx (by simp)
    | some cp =>
      dsimp only
      by_cases hne : env.bitcoin_hash h ≠ cp
      · rw [if_pos hne]
        constructor
        · intro hx
          exact absurd hx (by simp)
        · intro hx
          exact absurd hx (by simp)
      · rw [if_neg hne]
        dsimp only
        rw [hm]
        dsimp only
        constructor
        · intro hx
          by_cases h1 : h.time ≤ m
          · rw [if_pos h1] at hx
            exact absurd hx (by simp)
          · rw [if_neg h1] at hx
            by_cases h2 : h.time > t + MAX_FUTURE_BLOCK_TIME
            · rw [if_pos h2] at hx
              exact absurd hx (by simp)
            · rw [if_neg h2] at hx
              exact absurd hx (by simp)
        · intro hx
          exact absurd hx (by simp)

/-- Witness for C10 at a concrete min-difficulty state. -/
theorem claim_C10_witness :
    selectTarget tEnv sMin (tipCB sMin) hFast = 1000000 ∧
    requiredTarget tEnv sMin (tipCB sMin) hFast = 1000000 := by
  have hc := claim_C10 tEnv sMin (tipCB sMin) hFast 10000 (by decide) (by decide) (by decide)
  refine ⟨?_, ?_⟩
  · rw [hc.1]
    decide
  · rw [hc.2.1]
    decide

/-- Claim C4: for a header that does not extend the tip, `import_block`
classifies strictly in this order: duplicate (hash already indexed or
stashed) fails with `DuplicateBlock(hash)`; else a parent on the active
chain at a height below the last checkpoint fails with
`InvalidBlockHeight(h+1)`; else the hash must satisfy the header's own
compact target (`InvalidBlockPoW`) and that target must not exceed
`pow_limit` (`InvalidBlockTarget`); on success the header is inserted
into the orphan pool, and the import continues with the fork engine. -/
theorem claim_C4 (env : Env) (c : BlockCache) (h : BlockHeader) (t : Nat)
    (hne : ¬ h.prev_blockhash = tipHash c) :
    (((alookup c.headers (env.bitcoin_hash h)).isSome = true ∨
      (alookup c.orphans (env.bitcoin_hash h)).isSome = true) →
      import_block env c h t = some (c, .error (.DuplicateBlock (env.bitcoin_hash h)))) ∧
    (∀ hp, (alookup c.headers (env.bitcoin_hash h)).isSome = false →
      (alookup c.orphans (env.bitcoin_hash h)).isSome = false →
      alookup c.headers h.prev_blockhash = some hp →
      hp < last_checkpoint c →
      import_block env c h t = some (c, .error (.InvalidBlockHeight (hp + 1)))) ∧
    ((alookup c.headers (env.bitcoin_hash h)).isSome = false →
      (alookup c.orphans (env.bitcoin_hash h)).isSome = false →
      (∀ hp, alookup c.headers h.prev_blockhash = some hp → ¬ hp < last_checkpoint c) →
      ¬ leVal (env.bitcoin_hash h) ≤ env.target_from_bits h.bits →
      import_block env c h t = some (c, .error .InvalidBlockPoW)) ∧
    ((alookup c.headers (env.bitcoin_hash h)).isSome = false →
      (alookup c.orphans (env.bitcoin_hash h)).isSome = false →
      (∀ hp, alookup c.headers h.prev_blockhash = some hp → ¬ hp < last_checkpoint c) →
      leVal (env.bitcoin_hash h) ≤ env.target_from_bits h.bits →
      env.target_from_bits h.bits > c.params.pow_limit →
      import_block env c h t
        = some (c, .error (.InvalidBlockTarget (env.target_from_bits h.bits)
            c.params.pow_limit))) ∧
    ((alookup c.headers (env.bitcoin_hash h)).isSome = false →
      (alookup c.orphans (env.bitcoin_hash h)).isSome = false →
      (∀ hp, alookup c.headers h.prev_blockhash = some hp → ¬ hp < last_checkpoint c) →
      leVal (env.bitcoin_hash h) ≤ env.target_from_bits h.bits →
      ¬ env.target_from_bits h.bits > c.params.pow_limit →
      phase1 env c h t
        = .stashed { c with orphans := ainsert c.orphans (env.bitcoin_hash h) h } ∧
      import_block env c h t
        = importRest env { c with orphans := ainsert c.orphans (env.bitcoin_hash h) h } h
            (tipHash c) t) := by
  have hne' : ¬ h.prev_blockhash = (tipCB c).hash := hne
  refine ⟨?_, ?_, ?_, ?_, ?_⟩
  · intro hdup
    have hph : phase1 env c h t = .failed (.DuplicateBlock (env.bitcoin_hash h)) := by
      simp only [phase1]
      rw [if_neg hne', if_pos (Bool.or_eq_true _ _ |>.mpr hdup)]
    simp only [import_block, hph]
  · intro hp hd1 hd2 hlk hlt
    have hph : phase1 env c h t = .failed (.InvalidBlockHeight (hp + 1)) := by
      simp only [phase1]
      rw [if_neg hne', if_neg (by simp [hd1, hd2]), hlk]
      dsimp only
      rw [if_pos hlt]
    simp only [import_block, hph]
  · intro hd1 hd2 hpc hpow
    have hprecheck : (match alookup c.headers h.prev_blockhash with
        | some hp =>
            if hp < last_checkpoint c then some (Err.InvalidBlockHeight (hp + 1)) else none
        | none => none) = (none : Option Err) := by
      cases hlk : alookup c.headers h.prev_blockhash with
      | none => rfl
      | some hp =>
        dsimp only
        rw [if_neg (hpc hp hlk)]
    have hvp : validate_pow env h (env.target_from_bits h.bits) = .error .badPoW := by
      simp only [validate_pow]
      rw [if_neg (by simp), if_neg hpow]
    have hph : phase1 env c h t = .failed .InvalidBlockPoW := by
      simp only [phase1]
      rw [if_neg hne', if_neg (by simp [hd1, hd2]), hprecheck]
      dsimp only
      rw [hvp]
    simp only [import_block, hph]
  · intro hd1 hd2 hpc hpow hlim
    have hprecheck : (match alookup c.headers h.prev_blockhash with
        | some hp =>
            if hp < last_checkpoint c then some (Err.InvalidBlockHeight (hp + 1)) else none
        | none => none) = (none : Option Err) := by
      cases hlk : alookup c.headers h.prev_blockhash with
      | none => rfl
      | some hp =>
        dsimp only
        rw [if_neg (hpc hp hlk)]
    have hvp : validate_pow env h (env.target_from_bits h.bits) = .ok () := by
      simp only [validate_pow]
      rw [if_neg (by simp), if_pos hpow]
    have hph : phase1 env c h t
        = .failed (.InvalidBlockTarget (env.target_from_bits h.bits) c.params.pow_limit) := by
      simp only [phase1]
      rw [if_neg hne', if_neg (by simp [hd1, hd2]), hprecheck]
      dsimp only
      rw [hvp]
      dsimp only
      rw [if_pos hlim]
    simp only [import_block, hph]
  · intro hd1 hd2 hpc hpow hlim
    have hprecheck : (match alookup c.headers h.prev_blockhash with
        | some hp =>
            if hp < last_checkpoint c then some (Err.InvalidBlockHeight (hp + 1)) else none
        | none => none) = (none : Option Err) := by
      cases hlk : alookup c.headers h.prev_blockhash with
      | none => rfl
      | some hp =>
        dsimp only
        rw [if_neg (hpc hp hlk)]
    have hvp : validate_pow env h (env.target_from_bits h.bits) = .ok () := by
      simp only [validate_pow]
      rw [if_neg (by simp), if_pos hpow]
    have hph : phase1 env c h t
        = .stashed { c with orphans := ainsert c.orphans (env.bitcoin_hash h) h } := by
      simp only [phase1]
      rw [if_neg hne', if_neg (by simp [hd1, hd2]), hprecheck]
      dsimp only
      rw [hvp]
      dsimp only
      rw [if_neg hlim]
    exact ⟨hph, by simp only [import_block, hph]⟩

/-- Witness for C4: re-importing a header with the genesis hash but a
non-tip parent is rejected as a duplicate. -/
theorem claim_C4_witness :
    import_block tEnv s0fix ⟨[55], 1600, 1000000, 7⟩ 10000
      = some (s0fix, .error (.DuplicateBlock [7])) :=
  (claim_C4 tEnv s0fix ⟨[55], 1600, 1000000, 7⟩ 10000 (by decide)).1 (Or.inl (by decide))

/-- Claim C8: importing a valid header whose parent is unknown (not on
the active chain, not in the orphan pool, and yielding no candidate)
returns `BlockMissing(parent)` while leaving the header stored in the
orphan pool; concretely, from genesis, importing `h2B` before `h1B` gives
`BlockMissing(hash h1B)` with `h2B` stashed, and a subsequent import of
`h1B` returns `TipChanged` to `hash h2B` at height 2, activating the
stashed orphan through the fork path. -/
theorem claim_C8 :
    (∀ (env : Env) (c : BlockCache) (h2 : BlockHeader) (t : Nat),
      ¬ h2.prev_blockhash = tipHash c →
      (alookup c.headers (env.bitcoin_hash h2)).isSome = false →
      (alookup c.orphans (env.bitcoin_hash h2)).isSome = false →
      alookup c.headers h2.prev_blockhash = none →
      alookup c.orphans h2.prev_blockhash = none →
      h2.prev_blockhash ≠ env.bitcoin_hash h2 →
      leVal (env.bitcoin_hash h2) ≤ env.target_from_bits h2.bits →
      ¬ env.target_from_bits h2.bits > c.params.pow_limit →
      chain_candidates env
        { c with orphans := ainsert c.orphans (env.bitcoin_hash h2) h2 } t = some [] →
      import_block env c h2 t
        = some ({ c with orphans := ainsert c.orphans (env.bitcoin_hash h2) h2 },
            .error (.BlockMissing h2.prev_blockhash))) ∧
    import_block tEnv s0fix h2B 10000 = some (s1fix, .error (.BlockMissing [8])) ∧
    alookup s1fix.orphans [9] = some h2B ∧
    import_block tEnv s1fix h1B 10000 = some (s2fix, .ok (.TipChanged [9] 2 [])) ∧
    tipHash s2fix = [9] ∧ heightOf s2fix = 2 := by
  refine ⟨?_, by decide, by decide, by decide, by decide, by decide⟩
  intro env c h2 t hne hd1 hd2 hlk ho hself hpow hlim hcand
  have hne' : ¬ h2.prev_blockhash = (tipCB c).hash := hne
  have hprecheck : (match alookup c.headers h2.prev_blockhash with
      | some hp =>
          if hp < last_checkpoint c then some (Err.InvalidBlockHeight (hp + 1)) else none
      | none => none) = (none : Option Err) := by
    rw [hlk]
  have hvp : validate_pow env h2 (env.target_from_bits h2.bits) = .ok () := by
    simp only [validate_pow]
    rw [if_neg (by simp), if_pos hpow]
  have hph : phase1 env c h2 t
      = .stashed { c with orphans := ainsert c.orphans (env.bitcoin_hash h2) h2 } := by
    simp only [phase1]
    rw [if_neg hne', if_neg (by simp [hd1, hd2]), hprecheck]
    dsimp only
    rw [hvp]
    dsimp only
    rw [if_neg hlim]
  simp only [import_block, hph]
  simp only [importRest, hcand]
  dsimp only
  have hguard : ((List.isEmpty (α := Candidate) [])
      && (alookup c.headers h2.prev_blockhash).isNone &&
      (alookup (ainsert c.orphans (env.bitcoin_hash h2) h2) h2.prev_blockhash).isNone)
      = true := by
    simp only [List.isEmpty_nil, Bool.true_and, Bool.and_eq_true,
      Option.isNone_iff_eq_none]
    refine ⟨hlk, ?_⟩
    rw [alookup_ainsert_ne hself]
    exact ho
  rw [if_pos hguard]

/-- Witness for C8's universal orphan-guard conjunct at the concrete
scenario. -/
theorem claim_C8_witness :
    import_block tEnv s0fix h2B 10000
      = some ({ s0fix with orphans := ainsert s0fix.orphans [9] h2B },
          .error (.BlockMissing [8])) :=
  claim_C8.1 tEnv s0fix h2B 10000 (by decide) (by decide) (by decide) (by decide)
    (by decide) (by decide) (by decide) (by decide) (by decide)

/-- Counterexample to claim C7: `h1B` extends the tip of `s1fix` (whose
orphan pool holds its child `h2B`), yet `import_block` does more than
append `h1B`: the fork engine then activates the stashed child, so the
final tip is `hash h2B`, not `hash h1B`, and the chain grows by two. -/
theorem claim_C7_counterexample :
    h1B.prev_blockhash = tipHash s1fix ∧
    import_block tEnv s1fix h1B 10000 = some (s2fix, .ok (.TipChanged [9] 2 [])) ∧
    s2fix.chain_tail
      ≠ s1fix.chain_tail ++ [⟨(tipCB s1fix).height + 1, tEnv.bitcoin_hash h1B, h1B⟩] ∧
    tipHash s2fix ≠ tEnv.bitcoin_hash h1B := by
  refine ⟨by decide, by decide, by decide, by decide⟩

/-- Claim C7, amended: `extend_tip` on a tip-extending header never
inserts into the orphan pool and never rolls back the chain, returning
`TipChanged(hash, parent_height + 1, [])` on success and leaving the
state unchanged on a validation error; on any other header it returns
`TipUnchanged` with the state unchanged.  `import_block` on a
tip-extending header appends exactly that block in its classification
phase, but then still runs the fork engine on the result, which may
activate a stashed orphan branch (so its state change is not limited to
the append). -/
theorem claim_C7 :
    (∀ (env : Env) (c : BlockCache) (h : BlockHeader) (t : Nat) (c' : BlockCache)
        (r : Except Err ImportResult),
      h.prev_blockhash = tipHash c →
      extend_tip env c h t = some (c', r) →
      (∃ e, r = .error e ∧ c' = c) ∨
      (r = .ok (.TipChanged (env.bitcoin_hash h) ((tipCB c).height + 1) []) ∧
        c'.chain_tail = c.chain_tail
          ++ [⟨(tipCB c).height + 1, env.bitcoin_hash h, h⟩] ∧
        c'.headers = ainsert c.headers (env.bitcoin_hash h) ((tipCB c).height + 1) ∧
        c'.orphans = aremove c.orphans (env.bitcoin_hash h) ∧
        c'.store = c.store ++ [h] ∧
        c'.checkpoints = c.checkpoints ∧
        c'.chain_head = c.chain_head ∧
        c'.params = c.params)) ∧
    (∀ (env : Env) (c : BlockCache) (h : BlockHeader) (t : Nat),
      ¬ h.prev_blockhash = tipHash c →
      extend_tip env c h t = some (c, .ok .TipUnchanged)) ∧
    (∀ (env : Env) (c : BlockCache) (h : BlockHeader) (t : Nat) (c' : BlockCache)
        (r : Except Err ImportResult),
      h.prev_blockhash = tipHash c →
      import_block env c h t = some (c', r) →
      (∃ e, r = .error e ∧ c' = c) ∨
      (∃ c1, validate env c (tipCB c) h t = some (.ok ()) ∧
        c1.chain_tail = c.chain_tail
          ++ [⟨(tipCB c).height + 1, env.bitcoin_hash h, h⟩] ∧
        c1.headers = ainsert c.headers (env.bitcoin_hash h) ((tipCB c).height + 1) ∧
        c1.orphans = aremove c.orphans (env.bitcoin_hash h) ∧
        c1.store = c.store ++ [h] ∧
        importRest env c1 h (tipHash c) t = some (c', r))) := by
  refine ⟨?_, ?_, ?_⟩
  · intro env c h t c' r hprev hx
    have hprev' : h.prev_blockhash = (tipCB c).hash := hprev
    simp only [extend_tip, if_pos hprev'] at hx
    cases hv : validate env c (tipCB c) h t with
    | none => rw [hv] at hx; exact absurd hx (by simp)
    | some res =>
      rw [hv] at hx
      cases res with
      | error e =>
        dsimp only at hx
        simp only [Option.some_inj, Prod.mk.injEq] at hx
        exact Or.inl ⟨e, hx.2.symm, hx.1.symm⟩
      | ok u =>
        dsimp only at hx
        cases he : extend_chain c ((tipCB c).height + 1) (env.bitcoin_hash h) h with
        | none => rw [he] at hx; exact absurd hx (by simp)
        | some c0 =>
          rw [he] at hx
          dsimp only at hx
          simp only [Option.some_inj, Prod.mk.injEq] at hx
          obtain ⟨hc', hr⟩ := hx
          obtain ⟨_, hc0⟩ := extend_chain_some_iff.mp he
          subst hc0
          subst hc'
          exact Or.inr ⟨hr.symm, rfl, rfl, rfl, rfl, rfl, rfl, rfl⟩
  · intro env c h t hprev
    have hprev' : ¬ h.prev_blockhash = (tipCB c).hash := hprev
    simp only [extend_tip, if_neg hprev']
  · intro env c h t c' r hprev hx
    have hprev' : h.prev_blockhash = (tipCB c).hash := hprev
    simp only [import_block] at hx
    cases hph : phase1 env c h t with
    | panicked => rw [hph] at hx; exact absurd hx (by simp)
    | failed e =>
      rw [hph] at hx
      simp only [Option.some_inj, Prod.mk.injEq] at hx
      exact Or.inl ⟨e, hx.2.symm, hx.1.symm⟩
    | stashed c1 =>
      exfalso
      exact (phase1_stashed_inv hph).2.2.2 hprev'
    | extended c1 =>
      rw [hph] at hx
      obtain ⟨c0, _, hv, he, hc1⟩ := phase1_extended_inv hph
      obtain ⟨_, hc0⟩ := extend_chain_some_iff.mp he
      subst hc0
      subst hc1
      exact Or.inr ⟨_, hv, rfl, rfl, rfl, rfl, hx⟩

/-- Witness for C7's `TipUnchanged` conjunct at a concrete input. -/
theorem claim_C7_witness :
    extend_tip tEnv s0fix h2B 10000 = some (s0fix, .ok .TipUnchanged) :=
  claim_C7.2.1 tEnv s0fix h2B 10000 (by decide)
